import Mathlib

/-!
Verification of the text-editing, tag-extraction and filter-matching core of
the `todo-log` journaling tool.

Strings are modelled as `List Char` (Rust `&str` viewed as its sequence of
Unicode scalar values).  Byte-level behaviour (Rust `str::len`, byte-indexed
`rfind` results, byte slicing `s[i..]`) is modelled explicitly through
`Char.utf8Size`, so that the byte/character distinctions of the source are
preserved.  Fallible byte slicing is modelled with `Option` (`none` = panic).

Source files embedded here: `src/models.rs` (parser, toggle, filters) and
`src/ui/app.rs` (text buffer, cursor, autocomplete, save).
-/

/-! ## Character classes (Rust `char` predicates) -/

/-- Rust `char::is_whitespace`: the Unicode `White_Space` property,
written out as its (fixed, small) list of code points. -/
def rustIsWhitespace (c : Char) : Bool :=
  c == ' ' || c == '\t' || c == '\n' || c == '\x0b' || c == '\x0c' || c == '\r' ||
  c == '\x85' || c == '\xa0' || c == '\u1680' ||
  ('\u2000' ≤ c && c ≤ '\u200a') ||
  c == '\u2028' || c == '\u2029' || c == '\u202f' || c == '\u205f' || c == '\u3000'

/-- Rust `char::is_alphanumeric` (Unicode `Alphabetic` or numeric), modelled by
Lean's ASCII `Char.isAlphanum`.  Every claim below applies this predicate
identically on the code side and on the spec side, so the ASCII approximation
of the full Unicode table does not affect any claim's truth value. -/
def rustIsAlphanumeric (c : Char) : Bool :=
  c.isAlphanum

/-- The character class kept by tag trimming in `LogEntry::parse`:
alphanumeric, `-` or `_`.  The source trims characters `c` with
`!c.is_alphanumeric() && c != '-' && c != '_'`. -/
def tagChar (c : Char) : Bool :=
  rustIsAlphanumeric c || c == '-' || c == '_'

/-! ## String-model primitives -/

/-- Total UTF-8 byte length of a character sequence (Rust `str::len`). -/
def utf8Len (s : List Char) : Nat :=
  (s.map Char.utf8Size).sum

/-- Splitting on a separator predicate, Rust `str::split` semantics:
`n` separator characters produce `n + 1` (possibly empty) pieces. -/
def splitP (p : Char → Bool) : List Char → List (List Char)
  | [] => [[]]
  | c :: cs =>
    if p c then [] :: splitP p cs
    else (c :: (splitP p cs).headD []) :: (splitP p cs).tail

/-- Rust `str::split('\n')`. -/
def splitNl (s : List Char) : List (List Char) :=
  splitP (fun c => c == '\n') s

/-- Rejoining line pieces with `'\n'`, Rust `Vec::join("\n")`. -/
def joinNl : List (List Char) → List Char
  | [] => []
  | [l] => l
  | l :: ls => l ++ '\n' :: joinNl ls

/-- Rust `str::split_whitespace`: split on whitespace and drop empty pieces
(equivalently, split on maximal whitespace runs). -/
def splitWhitespace (s : List Char) : List (List Char) :=
  (splitP rustIsWhitespace s).filter (fun w => ¬w.isEmpty)

/-- Rust `str::trim_matches(p)`: strip characters satisfying `p` from both
ends. -/
def rustTrimMatches (p : Char → Bool) (s : List Char) : List Char :=
  (s.dropWhile p).rdropWhile p

/-- Rust `str::trim`. -/
def rustTrim (s : List Char) : List Char :=
  rustTrimMatches rustIsWhitespace s

/-- Drop one trailing `'\r'` if present — the carriage-return stripping that
Rust `str::lines` applies to every `'\n'`-terminated piece. -/
def stripCR (l : List Char) : List Char :=
  if l.getLast? = some '\r' then l.dropLast else l

/-- Rust `str::lines`: split on `'\n'`, drop the final piece when it is empty
(i.e. the final line ending is optional), and strip one trailing `'\r'` from
every piece that was terminated by a `'\n'` (the last piece is kept verbatim
when the text does not end with `'\n'`). -/
def rustLines (s : List Char) : List (List Char) :=
  let parts := splitNl s
  if parts.getLast? = some [] then (parts.dropLast).map stripCR
  else ((parts.dropLast).map stripCR) ++ [parts.getLastD []]

/-- Rust `str::rfind(pred)`: byte index of the start of the last character
satisfying the predicate. -/
def rfindByte (p : Char → Bool) : List Char → Option Nat
  | [] => none
  | c :: cs =>
    match rfindByte p cs with
    | some i => some (c.utf8Size + i)
    | none => if p c then some 0 else none

/-- Rust byte slicing `&s[n..]`: `none` models the panic when `n` does not
fall on a character boundary. -/
def byteDrop : Nat → List Char → Option (List Char)
  | n, [] => if n = 0 then some [] else none
  | n, c :: cs =>
    if n = 0 then some (c :: cs)
    else if c.utf8Size ≤ n then byteDrop (n - c.utf8Size) cs
    else none

/-- Rust `str::replace(pat, rep)`: replace every non-overlapping occurrence,
scanning left to right.  (Only used with non-empty patterns.) -/
def replaceAll (pat rep : List Char) : List Char → List Char
  | [] => []
  | c :: cs =>
    if pat.isPrefixOf (c :: cs) ∧ pat ≠ [] then
      rep ++ replaceAll pat rep ((c :: cs).drop pat.length)
    else
      c :: replaceAll pat rep cs
termination_by s => s.length
decreasing_by
  · rename_i h
    have hp : 0 < pat.length := List.length_pos.mpr h.2
    simp only [List.length_drop, List.length_cons]
    omega
  · simp

/-- Rust `str::replacen(pat, rep, 1)`: replace only the first occurrence. -/
def replaceFirst (pat rep : List Char) : List Char → List Char
  | [] => []
  | c :: cs =>
    if pat.isPrefixOf (c :: cs) ∧ pat ≠ [] then
      rep ++ (c :: cs).drop pat.length
    else
      c :: replaceFirst pat rep cs

/-- Rust `str::to_lowercase`, modelled per character by `Char.toLower`
(ASCII case mapping; applied identically on both sides of every claim that
uses it). -/
def rustToLowercase (s : List Char) : List Char :=
  s.map Char.toLower

/-! ## Data model (`src/models.rs`) -/

/-- A todo item extracted from a log entry (`struct Todo`). -/
structure Todo where
  text : List Char
  completed : Bool
  line_number : Nat
  projects : List (List Char)
  people : List (List Char)
  log_path : List Char
deriving Repr, DecidableEq

/-- A log entry (`struct LogEntry`).  The `chrono` timestamp is modelled by an
integer day number `date` (only its total order matters, for `LogFilter`);
`parse` leaves it at the construction default `0`, standing for the
best-effort decoration `Local::now()` / directory-name parsing in the source,
which no claim below depends on. -/
structure LogEntry where
  date : Int
  content : List Char
  projects : List (List Char)
  people : List (List Char)
  todos : List Todo
  file_path : List Char
deriving Repr, DecidableEq

/-- One step of the tag-extraction loop in `LogEntry::parse`:

  for word in content.split_whitespace() {
      if word.starts_with(mark) && word.len() > 1 {
          let tag = word[1..].trim_matches(|c| !c.is_alphanumeric() && c != '-' && c != '_');
          if !tag.is_empty() && !acc.contains(&tag) { acc.push(tag); } } }

`word.len()` is the byte length; `word[1..]` is byte slicing (`none` = panic). -/
def tagStep (mark : Char) (acc : List (List Char)) (word : List Char) :
    Option (List (List Char)) :=
  if word.head? = some mark ∧ utf8Len word > 1 then
    match byteDrop 1 word with
    | none => none
    | some w1 =>
      let tag := rustTrimMatches (fun c => ¬tagChar c) w1
      if ¬tag.isEmpty ∧ ¬acc.contains tag then some (acc ++ [tag]) else some acc
  else some acc

/-- The tag-extraction loop of `LogEntry::parse`, shared by the `#` (projects)
and `@` (people) passes, whose source bodies are identical up to the marker
character and the target vector. -/
def extractTags (mark : Char) (content : List Char) : Option (List (List Char)) :=
  (splitWhitespace content).foldlM (tagStep mark) []

/-- One step of the todo-extraction loop in `LogEntry::parse`: a trimmed line
starting with `[]` yields an incomplete todo from the byte remainder after the
2-byte marker; one starting with `[x]`/`[X]` a completed todo after 3 bytes. -/
def todoStep (projects people : List (List Char)) (file_path : List Char)
    (acc : List Todo) (p : Nat × List Char) : Option (List Todo) :=
  let trimmed := rustTrim p.2
  if ("[]".data).isPrefixOf trimmed then
    (byteDrop 2 trimmed).map (fun rest =>
      acc ++ [⟨rustTrim rest, false, p.1, projects, people, file_path⟩])
  else if ("[x]".data).isPrefixOf trimmed ∨ ("[X]".data).isPrefixOf trimmed then
    (byteDrop 3 trimmed).map (fun rest =>
      acc ++ [⟨rustTrim rest, true, p.1, projects, people, file_path⟩])
  else some acc

/-- The todo-extraction loop of `LogEntry::parse` over
`content.lines().enumerate()`. -/
def extractTodos (projects people : List (List Char)) (file_path content : List Char) :
    Option (List Todo) :=
  ((rustLines content).enum).foldlM (todoStep projects people file_path) []

/-- Parser `LogEntry::parse(content, file_path)` from `src/models.rs`.
The result is `none` exactly when some byte slice of the source would panic
(fall off a character boundary); totality is the subject of a claim below. -/
def LogEntry.parse (content file_path : List Char) : Option LogEntry := do
  let projects ← extractTags '#' content
  let people ← extractTags '@' content
  let todos ← extractTodos projects people file_path content
  some ⟨0, content, projects, people, todos, file_path⟩

/-- The per-line rewrite of `Todo::toggle`: for a completed todo,
`line.replace("[x]", "[]").replace("[X]", "[]")`; for an incomplete one,
`line.replacen("[]", "[x]", 1)` guarded by `line.trim().starts_with("[]")`,
otherwise the line is kept. -/
def toggleLine (completed : Bool) (line : List Char) : List Char :=
  if completed then
    replaceAll ("[X]".data) ("[]".data) (replaceAll ("[x]".data) ("[]".data) line)
  else if ("[]".data).isPrefixOf (rustTrim line) then
    replaceFirst ("[]".data) ("[x]".data) line
  else line

/-- The pure content transformation of `Todo::toggle`: read all lines, rewrite
the line at `line_number` with `toggleLine`, push every other line unchanged,
and write back `new_lines.join("\n")`. -/
def toggleContent (completed : Bool) (line_number : Nat) (content : List Char) :
    List Char :=
  joinNl (((rustLines content).enum).map
    (fun p => if p.1 = line_number then toggleLine completed p.2 else p.2))

/-- Method `Todo::toggle` with the file system made explicit: it consumes the
freshly read file content and returns the content written back together with
the todo whose in-memory `completed` flag has been flipped. -/
def Todo.toggle (t : Todo) (fileContent : List Char) : List Char × Todo :=
  (toggleContent t.completed t.line_number fileContent,
   { t with completed := !t.completed })

/-- Filter configuration for the todo list view (`struct TodoFilter`). -/
structure TodoFilter where
  show_completed : Bool
  projects : List (List Char)
  people : List (List Char)
deriving Repr, DecidableEq

/-- Predicate `TodoFilter::matches` with the source's early returns folded
into nested conditionals. -/
def TodoFilter.matches (f : TodoFilter) (todo : Todo) : Bool :=
  if ¬f.show_completed ∧ todo.completed then false
  else if ¬f.projects.isEmpty ∧ ¬todo.projects.any (fun p => f.projects.contains p) then false
  else if ¬f.people.isEmpty ∧ ¬todo.people.any (fun p => f.people.contains p) then false
  else true

/-- Filter configuration for the log list view (`struct LogFilter`); the
optional `NaiveDate` bounds are modelled as optional integer day numbers. -/
structure LogFilter where
  projects : List (List Char)
  people : List (List Char)
  start_date : Option Int
  end_date : Option Int
deriving Repr, DecidableEq

/-- Predicate `LogFilter::matches`; `entry.timestamp.date_naive()` is the
entry's `date` field. -/
def LogFilter.matches (f : LogFilter) (entry : LogEntry) : Bool :=
  if ¬f.projects.isEmpty ∧ ¬entry.projects.any (fun p => f.projects.contains p) then false
  else if ¬f.people.isEmpty ∧ ¬entry.people.any (fun p => f.people.contains p) then false
  else if (match f.start_date with
           | some start => decide (entry.date < start)
           | none => false) then false
  else if (match f.end_date with
           | some stop => decide (stop < entry.date)
           | none => false) then false
  else true

/-! ## Application state and buffer operations (`src/ui/app.rs`) -/

/-- Autocomplete kind (`enum AutocompleteType`). -/
inductive AutocompleteType where
  | None
  | Project
  | Person
deriving Repr, DecidableEq

/-- The application screens (`enum Screen`); payload-carrying screens are not
needed by the operations verified here. -/
inductive Screen where
  | Menu
  | LogEntry
  | TodoList
  | LogList
  | ProjectList
deriving Repr, DecidableEq

/-- Application state (`struct App`).  `projects` and `people` hold the known
names (the `name` field is all the autocomplete engine reads).  Fields of the
source struct that none of the verified operations touch (storage handle,
file browser, filter panels, per-screen selections, ...) are omitted. -/
structure App where
  running : Bool
  screen : Screen
  previous_screen : Option Screen
  menu_selected : Nat
  projects : List (List Char)
  people : List (List Char)
  current_log : LogEntry
  log_cursor_pos : Nat
  attachments : List (List Char)
  autocomplete_suggestions : List (List Char)
  autocomplete_index : Nat
  autocomplete_active : Bool
  autocomplete_type : AutocompleteType
  status_message : Option (List Char)
deriving Repr, DecidableEq

/-- Constructor `LogEntry::new()` (timestamp default modelled as day `0`). -/
def LogEntry.new : LogEntry :=
  ⟨0, [], [], [], [], []⟩

/-- The word-start computation duplicated in `update_autocomplete` and
`accept_autocomplete`:

  before_cursor.rfind(|c| c.is_whitespace()).map(|i| i + 1).unwrap_or(0)

`rfind` returns a byte index, and the source adds `1` to it (a byte offset)
but then uses the sum as a character count — both kept faithfully. -/
def lastWordStart (before_cursor : List Char) : Nat :=
  match rfindByte rustIsWhitespace before_cursor with
  | some i => i + 1
  | none => 0

/-- Method `App::update_autocomplete`.  The byte slice `&current_word[1..]`
is modelled by the character drop `current_word.drop 1`, valid because the
guard pins the first character to the 1-byte `'#'`/`'@'`. -/
def App.update_autocomplete (s : App) : App :=
  let content := s.current_log.content
  if s.log_cursor_pos = 0 ∨ content.isEmpty then
    { s with autocomplete_active := false }
  else
    let before_cursor := content.take s.log_cursor_pos
    let last_word_start := lastWordStart before_cursor
    let current_word := before_cursor.drop last_word_start
    if current_word.head? = some '#' ∧ utf8Len current_word > 1 then
      let pre := rustToLowercase (current_word.drop 1)
      let sugg := s.projects.filter (fun n => pre.isPrefixOf (rustToLowercase n))
      { s with autocomplete_suggestions := sugg,
               autocomplete_type := AutocompleteType.Project,
               autocomplete_active := ¬sugg.isEmpty,
               autocomplete_index := 0 }
    else if current_word.head? = some '@' ∧ utf8Len current_word > 1 then
      let pre := rustToLowercase (current_word.drop 1)
      let sugg := s.people.filter (fun n => pre.isPrefixOf (rustToLowercase n))
      { s with autocomplete_suggestions := sugg,
               autocomplete_type := AutocompleteType.Person,
               autocomplete_active := ¬sugg.isEmpty,
               autocomplete_index := 0 }
    else
      { s with autocomplete_active := false,
               autocomplete_type := AutocompleteType.None }

/-- Method `App::accept_autocomplete`.  The vector indexing
`suggestions[index]` is modelled with default `[]` (it is in bounds in every
state produced by `update_autocomplete`); `new_word.len()` is the byte
length, kept faithfully as `utf8Len new_word`. -/
def App.accept_autocomplete (s : App) : App :=
  if ¬s.autocomplete_active ∨ s.autocomplete_suggestions.isEmpty then s
  else
    let suggestion := s.autocomplete_suggestions.getD s.autocomplete_index []
    let content := s.current_log.content
    let before_cursor := content.take s.log_cursor_pos
    let last_word_start := lastWordStart before_cursor
    match (match s.autocomplete_type with
           | AutocompleteType.Project => some '#'
           | AutocompleteType.Person => some '@'
           | AutocompleteType.None => none) with
    | none => s
    | some mark =>
      let before := content.take last_word_start
      let rest := content.drop s.log_cursor_pos
      let new_word := mark :: suggestion ++ (" ".data)
      { s with current_log := { s.current_log with content := before ++ new_word ++ rest },
               log_cursor_pos := last_word_start + utf8Len new_word,
               autocomplete_active := false,
               autocomplete_suggestions := [] }

/-- Method `App::insert_char`. -/
def App.insert_char (c : Char) (s : App) : App :=
  let before := s.current_log.content.take s.log_cursor_pos
  let rest := s.current_log.content.drop s.log_cursor_pos
  App.update_autocomplete
    { s with current_log := { s.current_log with content := before ++ c :: rest },
             log_cursor_pos := s.log_cursor_pos + 1 }

/-- Method `App::delete_char` (delete backward). -/
def App.delete_char (s : App) : App :=
  if s.log_cursor_pos > 0 then
    let before := s.current_log.content.take (s.log_cursor_pos - 1)
    let rest := s.current_log.content.drop s.log_cursor_pos
    App.update_autocomplete
      { s with current_log := { s.current_log with content := before ++ rest },
               log_cursor_pos := s.log_cursor_pos - 1 }
  else s

/-- Method `App::move_cursor_left`. -/
def App.move_cursor_left (s : App) : App :=
  if s.log_cursor_pos > 0 then { s with log_cursor_pos := s.log_cursor_pos - 1 } else s

/-- Method `App::move_cursor_right`. -/
def App.move_cursor_right (s : App) : App :=
  if s.log_cursor_pos < s.current_log.content.length then
    { s with log_cursor_pos := s.log_cursor_pos + 1 }
  else s

/-- Method `App::move_cursor_up`. -/
def App.move_cursor_up (s : App) : App :=
  let content := s.current_log.content
  let before_cursor := content.take s.log_cursor_pos
  let lines := splitNl before_cursor
  if lines.length ≤ 1 then s
  else
    let current_line_idx := lines.length - 1
    let current_col := (lines.getD current_line_idx []).length
    let prev_line := lines.getD (current_line_idx - 1) []
    let target_col := min current_col prev_line.length
    let chars_before_prev_line :=
      ((lines.take (current_line_idx - 1)).map (fun l => l.length + 1)).sum
    { s with log_cursor_pos := chars_before_prev_line + target_col }

/-- Method `App::move_cursor_down`. -/
def App.move_cursor_down (s : App) : App :=
  let content := s.current_log.content
  let all_lines := splitNl content
  let before_cursor := content.take s.log_cursor_pos
  let lines_before := splitNl before_cursor
  let current_line_idx := lines_before.length - 1
  let current_col := (lines_before.getD current_line_idx []).length
  if current_line_idx ≥ all_lines.length - 1 then s
  else
    let next_line := all_lines.getD (current_line_idx + 1) []
    let target_col := min current_col next_line.length
    let chars_before_next_line :=
      ((all_lines.take (current_line_idx + 1)).map (fun l => l.length + 1)).sum
    { s with log_cursor_pos := chars_before_next_line + target_col }

/-- Method `App::go_to_screen`. -/
def App.go_to_screen (scr : Screen) (s : App) : App :=
  let s1 := { s with previous_screen := some s.screen, screen := scr }
  if scr = Screen.Menu then { s1 with menu_selected := 0 } else s1

/-- Method `App::save_log`, with the storage collaborator made explicit: the
oracle `storageSave` stands for `Storage::save_log_entry` and returns the
file writes it performs together with `Ok(path)` or an I/O error.  The result
is the new application state, the performed writes, and the method's
`Result<()>`. -/
def App.save_log
    (storageSave : LogEntry → List (List Char) →
      List (List Char × List Char) × Except (List Char) (List Char))
    (s : App) :
    App × List (List Char × List Char) × Except (List Char) Unit :=
  if (rustTrim s.current_log.content).isEmpty then
    ({ s with status_message := some ("Cannot save empty log entry".data) }, [],
     Except.ok ())
  else
    match storageSave s.current_log s.attachments with
    | (writes, Except.error e) => (s, writes, Except.error e)
    | (writes, Except.ok path) =>
      (App.go_to_screen Screen.Menu
         { s with status_message := some (("Log saved to ".data) ++ path) },
       writes, Except.ok ())

/-! ## Specification-side definitions

These formalise the words of the specification (and of the claims under
check), independently of the control flow of the source, to be compared with
the embedded source functions above. -/

/-- Appending a tag with first-occurrence deduplication by exact string. -/
def dedupAppend (acc : List (List Char)) (tag : List Char) : List (List Char) :=
  if acc.contains tag then acc else acc ++ [tag]

/-- First-occurrence-order deduplication of a tag list. -/
def dedupFirstOccurrence (l : List (List Char)) : List (List Char) :=
  l.foldl dedupAppend []

/-- Specification wording for a single token: it references a tag when it
starts with the marker and, after stripping the leading marker and trimming
leading/trailing characters that are neither alphanumeric nor `-` nor `_`,
is non-empty. -/
def specTagOf (mark : Char) (word : List Char) : Option (List Char) :=
  if word.head? = some mark then
    let t := rustTrimMatches (fun c => ¬tagChar c) word.tail
    if t.isEmpty then none else some t
  else none

/-- Specification wording for the tag list of a text: the marker-bearing
whitespace-delimited tokens in first-occurrence order, duplicates dropped. -/
def specTags (mark : Char) (content : List Char) : List (List Char) :=
  dedupFirstOccurrence ((splitWhitespace content).filterMap (specTagOf mark))

/-- Specification wording for a single line of the todo extraction: a trimmed
line starting with `[]` yields an incomplete todo whose text is the remainder
after the 2-character marker, trimmed; one starting with `[x]`/`[X]` a
completed todo with the remainder after the 3-character marker, trimmed. -/
def specTodoOf (projects people : List (List Char)) (file_path : List Char)
    (p : Nat × List Char) : Option Todo :=
  let t := rustTrim p.2
  if ("[]".data).isPrefixOf t then
    some ⟨rustTrim (t.drop 2), false, p.1, projects, people, file_path⟩
  else if ("[x]".data).isPrefixOf t ∨ ("[X]".data).isPrefixOf t then
    some ⟨rustTrim (t.drop 3), true, p.1, projects, people, file_path⟩
  else none

/-- Specification wording for the todo list of a text: one todo per marker
line, in line order with 0-based line numbers, each carrying the given full
project and person lists. -/
def specTodos (projects people : List (List Char)) (file_path content : List Char) :
    List Todo :=
  ((rustLines content).enum).filterMap (specTodoOf projects people file_path)

/-- Character count of a list of lines where each line also accounts for its
trailing newline (the offset of the line following them all). -/
def lineStartsSum (lines : List (List Char)) : Nat :=
  (lines.map (fun l => l.length + 1)).sum

/-- Specification formula for `move_cursor_up`: no-op on the first line,
otherwise the character count of all lines strictly before the previous line
(each plus one for its newline) plus the column clamped to the previous
line's length.  Line index and column are derived from the text preceding
the cursor. -/
def specMoveUp (content : List Char) (pos : Nat) : Nat :=
  let lines := splitNl content
  let li := (content.take pos).count '\n'
  let col := pos - lineStartsSum (lines.take li)
  if li = 0 then pos
  else lineStartsSum (lines.take (li - 1)) + min col (lines.getD (li - 1) []).length

/-- Specification formula for `move_cursor_down`, symmetric on the next
line. -/
def specMoveDown (content : List Char) (pos : Nat) : Nat :=
  let lines := splitNl content
  let li := (content.take pos).count '\n'
  let col := pos - lineStartsSum (lines.take li)
  if li ≥ lines.length - 1 then pos
  else lineStartsSum (lines.take (li + 1)) + min col (lines.getD (li + 1) []).length

/-- Replacement of only the first occurrence of either of two patterns
(whichever occurs first, scanning left to right) — the literal reading of the
claim that toggling a completed todo replaces "the first occurrence of
`[x]` or `[X]`". -/
def replaceFirstOfTwo (pat1 pat2 rep : List Char) : List Char → List Char
  | [] => []
  | c :: cs =>
    if pat1.isPrefixOf (c :: cs) ∧ pat1 ≠ [] then rep ++ (c :: cs).drop pat1.length
    else if pat2.isPrefixOf (c :: cs) ∧ pat2 ≠ [] then rep ++ (c :: cs).drop pat2.length
    else c :: replaceFirstOfTwo pat1 pat2 rep cs

/-- The per-line rewrite exactly as the claim under check states it
(first-occurrence replacement in the completed case). -/
def claimToggleLine (completed : Bool) (line : List Char) : List Char :=
  if completed then
    replaceFirstOfTwo ("[x]".data) ("[X]".data) ("[]".data) line
  else if ("[]".data).isPrefixOf (rustTrim line) then
    replaceFirst ("[]".data) ("[x]".data) line
  else line

/-- The whole-file rewrite as the claim under check states it: only the
addressed line is transformed, every other line is unchanged. -/
def claimToggleContent (completed : Bool) (line_number : Nat) (content : List Char) :
    List Char :=
  joinNl (((rustLines content).enum).map
    (fun p => if p.1 = line_number then claimToggleLine completed p.2 else p.2))

/-- Simultaneous left-to-right replacement of every occurrence of either of
two patterns. -/
def replaceEvery2 (pat1 pat2 rep : List Char) : List Char → List Char
  | [] => []
  | c :: cs =>
    if pat1.isPrefixOf (c :: cs) ∧ pat1 ≠ [] then
      rep ++ replaceEvery2 pat1 pat2 rep ((c :: cs).drop pat1.length)
    else if pat2.isPrefixOf (c :: cs) ∧ pat2 ≠ [] then
      rep ++ replaceEvery2 pat1 pat2 rep ((c :: cs).drop pat2.length)
    else c :: replaceEvery2 pat1 pat2 rep cs
termination_by s => s.length
decreasing_by
  · rename_i h
    have hp : 0 < pat1.length := List.length_pos.mpr h.2
    simp only [List.length_drop, List.length_cons]
    omega
  · rename_i h1 h
    have hp : 0 < pat2.length := List.length_pos.mpr h.2
    simp only [List.length_drop, List.length_cons]
    omega
  · simp

/-- The per-line rewrite as amended: in the completed case, every occurrence
of `[x]` or `[X]` (scanning left to right) is replaced with `[]`; the
incomplete case is unchanged from the claim. -/
def amendedToggleLine (completed : Bool) (line : List Char) : List Char :=
  if completed then
    replaceEvery2 ("[x]".data) ("[X]".data) ("[]".data) line
  else if ("[]".data).isPrefixOf (rustTrim line) then
    replaceFirst ("[]".data) ("[x]".data) line
  else line

/-- The whole-file rewrite as amended. -/
def amendedToggleContent (completed : Bool) (line_number : Nat) (content : List Char) :
    List Char :=
  joinNl (((rustLines content).enum).map
    (fun p => if p.1 = line_number then amendedToggleLine completed p.2 else p.2))

/-- Two tag sets share at least one element (the "any-of" reading of a
filter dimension). -/
def sharesAny (recordTags filterTags : List (List Char)) : Prop :=
  ∃ t, t ∈ recordTags ∧ t ∈ filterTags

/-! ## Concrete states used by individual claims -/

/-- The initial application state relevant to the verified operations
(`App::new` with empty storage). -/
def appInit : App :=
  { running := true, screen := Screen.Menu, previous_screen := none,
    menu_selected := 0, projects := [], people := [],
    current_log := LogEntry.new, log_cursor_pos := 0, attachments := [],
    autocomplete_suggestions := [], autocomplete_index := 0,
    autocomplete_active := false, autocomplete_type := AutocompleteType.None,
    status_message := none }

/-- Buffer `"hello #pr"` with the cursor at the end, known project
`"project-x"`, autocomplete active with `"project-x"` selected. -/
def c1State : App :=
  { appInit with
    current_log := { LogEntry.new with content := "hello #pr".data },
    log_cursor_pos := 9,
    projects := ["project-x".data],
    autocomplete_suggestions := ["project-x".data],
    autocomplete_index := 0,
    autocomplete_active := true,
    autocomplete_type := AutocompleteType.Project }

/-- Buffer `"#é"` (2 characters, 3 bytes) with the cursor at the end and a
known project `"éé"`: typing reached this state, and `update_autocomplete`
activates the suggestion list on it. -/
def c4State : App :=
  { appInit with
    current_log := { LogEntry.new with content := "#é".data },
    log_cursor_pos := 2,
    projects := ["éé".data] }


/-! ## Theorems -/

/-- C1.  Counterexample to the claim as stated: for buffer `"hello #pr"`
(cursor at the end, known project `"project-x"`, autocomplete active with
`"project-x"` selected) the accept operation yields content
`"hello #project-x "` as claimed, but the cursor lands at offset 17
(the content's character count), not at the claimed offset 19. -/
theorem accept_autocomplete_c1_cursor_ne_19 :
    (App.accept_autocomplete c1State).current_log.content = ("hello #project-x ".data) ∧
    (App.accept_autocomplete c1State).log_cursor_pos ≠ 19 := by
  exact ⟨rfl, by decide⟩

/-- C1 (amended).  For the buffer `"hello #pr"` with the cursor at the end,
known project `"project-x"` and autocomplete active with `"project-x"`
selected, accepting the suggestion produces content `"hello #project-x "`
and leaves the cursor at offset 17. -/
theorem accept_autocomplete_c1_example :
    (App.accept_autocomplete c1State).current_log.content = ("hello #project-x ".data) ∧
    (App.accept_autocomplete c1State).log_cursor_pos = 17 :=
  ⟨rfl, rfl⟩

/-- C4.  The claimed cursor invariant `pos ≤ char_count(content)` is broken
by the code of `accept_autocomplete`: starting from the in-range state
`c4State` (content `"#é"`, cursor 2 = char count, known project `"éé"`),
`update_autocomplete` activates the suggestion and accepting it sets the
cursor to 6 — the byte length of the inserted word — while the new content
`"#éé "` has only 4 characters.  The spec prescribes character addressing
throughout, so this is a defect of the code (byte-valued `new_word.len()`
and byte-valued `rfind` used as character counts), not of the claim. -/
theorem accept_autocomplete_c4_invariant_violation :
    c4State.log_cursor_pos ≤ c4State.current_log.content.length ∧
    (App.update_autocomplete c4State).autocomplete_active = true ∧
    (App.accept_autocomplete (App.update_autocomplete c4State)).current_log.content.length <
      (App.accept_autocomplete (App.update_autocomplete c4State)).log_cursor_pos := by
  refine ⟨by decide, by decide, by decide⟩

/-- C10.  Saving a log entry whose content trims to empty writes no file,
changes nothing in the application state except the status message, and
returns `Ok(())`. -/
theorem save_log_empty_content (storageSave : LogEntry → List (List Char) →
      List (List Char × List Char) × Except (List Char) (List Char))
    (s : App) (h : (rustTrim s.current_log.content).isEmpty = true) :
    App.save_log storageSave s =
      ({ s with status_message := some ("Cannot save empty log entry".data) }, [],
       Except.ok ()) := by
  simp [App.save_log, h]

/-- C10 witness: the whitespace-only buffer `"  "` concretely. -/
theorem save_log_empty_content_witness :
    (rustTrim (("  ".data))).isEmpty = true ∧
    App.save_log (fun _ _ => ([], Except.ok ("p".data)))
        { appInit with current_log := { LogEntry.new with content := "  ".data } } =
      ({ { appInit with current_log := { LogEntry.new with content := "  ".data } } with
          status_message := some ("Cannot save empty log entry".data) }, [],
       Except.ok ()) :=
  ⟨by decide, save_log_empty_content _ _ (by decide)⟩

/-- C6.  The two filter predicates decompose into the conjunction of their
dimensions: a non-empty project (or people) set passes exactly when the
record shares at least one element with it, an empty set imposes no
constraint, `show_completed = false` excludes exactly the completed todos,
and the date bounds are inclusive with absent bounds unconstrained. -/
theorem filter_matches_c6_semantics (tf : TodoFilter) (t : Todo) (lf : LogFilter)
    (e : LogEntry) :
    (TodoFilter.matches tf t = true ↔
      ((tf.show_completed = false → t.completed = false) ∧
       (tf.projects ≠ [] → sharesAny t.projects tf.projects) ∧
       (tf.people ≠ [] → sharesAny t.people tf.people))) ∧
    (LogFilter.matches lf e = true ↔
      ((lf.projects ≠ [] → sharesAny e.projects lf.projects) ∧
       (lf.people ≠ [] → sharesAny e.people lf.people) ∧
       (∀ a, lf.start_date = some a → a ≤ e.date) ∧
       (∀ b, lf.end_date = some b → e.date ≤ b))) := by
  constructor
  · simp only [TodoFilter.matches, sharesAny]
    split_ifs with h1 h2 h3 <;>
      simp_all [List.any_eq_true, List.contains, not_or] <;>
      constructor <;> intros <;> simp_all <;> tauto
  · simp only [LogFilter.matches, sharesAny]
    split_ifs with h1 h2 h3 h4 <;>
      rcases hs : lf.start_date with _ | a <;> rcases he : lf.end_date with _ | b <;>
      simp_all [List.any_eq_true, List.contains, not_or] <;>
      first
        | omega
        | (constructor <;> intros <;> simp_all <;> first | tauto | omega)

/-! ## Parser lemmas -/

theorem byteDrop_zero (s : List Char) : byteDrop 0 s = some s := by
  cases s <;> simp [byteDrop]

theorem utf8Len_cons (c : Char) (cs : List Char) :
    utf8Len (c :: cs) = c.utf8Size + utf8Len cs := by
  simp [utf8Len]

theorem utf8Len_eq_zero {s : List Char} (h : utf8Len s = 0) : s = [] := by
  cases s with
  | nil => rfl
  | cons c cs =>
    have := Char.utf8Size_pos c
    rw [utf8Len_cons] at h
    omega

theorem byteDrop_one {c : Char} (hc : c.utf8Size = 1) (cs : List Char) :
    byteDrop 1 (c :: cs) = some cs := by
  simp [byteDrop, hc, byteDrop_zero]

theorem rustTrimMatches_nil (p : Char → Bool) : rustTrimMatches p [] = [] := by
  simp [rustTrimMatches, List.rdropWhile]

theorem tagStep_spec {mark : Char} (hm : mark.utf8Size = 1)
    (acc : List (List Char)) (word : List Char) :
    tagStep mark acc word =
      some ((specTagOf mark word).elim acc (dedupAppend acc)) := by
  cases word with
  | nil => simp [tagStep, specTagOf]
  | cons c cs =>
    by_cases hc : c = mark
    · subst hc
      by_cases hlen : utf8Len (c :: cs) > 1
      · rw [tagStep, if_pos ⟨rfl, hlen⟩, byteDrop_one hm]
        simp only [specTagOf, List.head?_cons, List.tail_cons]
        split_ifs <;>
          simp_all [dedupAppend, not_and, Decidable.not_not, List.isEmpty_iff]
      · have hcs : cs = [] := by
          rw [utf8Len_cons, hm] at hlen
          exact utf8Len_eq_zero (by omega)
        subst hcs
        rw [tagStep, if_neg (by simp [hlen])]
        simp [specTagOf, rustTrimMatches_nil]
    · rw [tagStep, if_neg (by simp [hc])]
      rw [specTagOf, if_neg (by simp [hc])]
      simp

theorem foldlM_tagStep {mark : Char} (hm : mark.utf8Size = 1) :
    ∀ (tokens : List (List Char)) (acc : List (List Char)),
      tokens.foldlM (tagStep mark) acc =
        some ((tokens.filterMap (specTagOf mark)).foldl dedupAppend acc) := by
  intro tokens
  induction tokens with
  | nil => intro acc; simp
  | cons w ts ih =>
    intro acc
    rw [List.foldlM_cons, tagStep_spec hm]
    cases hw : specTagOf mark w with
    | none => simpa [List.filterMap_cons, hw] using ih acc
    | some tag => simpa [List.filterMap_cons, hw] using ih (dedupAppend acc tag)

theorem extractTags_spec {mark : Char} (hm : mark.utf8Size = 1) (content : List Char) :
    extractTags mark content = some (specTags mark content) := by
  unfold extractTags specTags dedupFirstOccurrence
  exact foldlM_tagStep hm _ []

theorem byteDrop_two (t : List Char) : byteDrop 2 ('[' :: ']' :: t) = some t := by
  have h1 : ('[' : Char).utf8Size = 1 := rfl
  have h2 : (']' : Char).utf8Size = 1 := rfl
  simp [byteDrop, h1, h2, byteDrop_zero]

theorem byteDrop_three {c : Char} (hc : c.utf8Size = 1) (t : List Char) :
    byteDrop 3 ('[' :: c :: ']' :: t) = some t := by
  have h1 : ('[' : Char).utf8Size = 1 := rfl
  have h2 : (']' : Char).utf8Size = 1 := rfl
  simp [byteDrop, h1, h2, hc, byteDrop_zero]

theorem todoStep_spec (projects people : List (List Char)) (fp : List Char)
    (acc : List Todo) (p : Nat × List Char) :
    todoStep projects people fp acc p =
      some ((specTodoOf projects people fp p).elim acc (fun t => acc ++ [t])) := by
  unfold todoStep specTodoOf
  by_cases h1 : ("[]".data).isPrefixOf (rustTrim p.2) = true
  · obtain ⟨t, ht⟩ := List.isPrefixOf_iff_prefix.mp h1
    have hbd : byteDrop 2 (rustTrim p.2) = some t := by
      rw [← ht]; exact byteDrop_two t
    have hdrop : (rustTrim p.2).drop 2 = t := by rw [← ht]; rfl
    simp [h1, hbd, hdrop]
  · by_cases h2 : ("[x]".data).isPrefixOf (rustTrim p.2) = true
    · obtain ⟨t, ht⟩ := List.isPrefixOf_iff_prefix.mp h2
      have hbd : byteDrop 3 (rustTrim p.2) = some t := by
        rw [← ht]; exact @byteDrop_three 'x' rfl t
      have hdrop : (rustTrim p.2).drop 3 = t := by rw [← ht]; rfl
      simp [h1, h2, hbd, hdrop]
    · by_cases h3 : ("[X]".data).isPrefixOf (rustTrim p.2) = true
      · obtain ⟨t, ht⟩ := List.isPrefixOf_iff_prefix.mp h3
        have hbd : byteDrop 3 (rustTrim p.2) = some t := by
          rw [← ht]; exact @byteDrop_three 'X' rfl t
        have hdrop : (rustTrim p.2).drop 3 = t := by rw [← ht]; rfl
        simp [h1, h2, h3, hbd, hdrop]
      · simp [h1, h2, h3]

theorem foldlM_todoStep (projects people : List (List Char)) (fp : List Char) :
    ∀ (ps : List (Nat × List Char)) (acc : List Todo),
      ps.foldlM (todoStep projects people fp) acc =
        some (acc ++ ps.filterMap (specTodoOf projects people fp)) := by
  intro ps
  induction ps with
  | nil => intro acc; simp
  | cons q qs ih =>
    intro acc
    rw [List.foldlM_cons, todoStep_spec]
    cases hq : specTodoOf projects people fp q with
    | none => simpa [List.filterMap_cons, hq] using ih acc
    | some td => simpa [List.filterMap_cons, hq] using ih (acc ++ [td])

theorem extractTodos_spec (projects people : List (List Char)) (fp content : List Char) :
    extractTodos projects people fp content =
      some (specTodos projects people fp content) := by
  unfold extractTodos specTodos
  simpa using foldlM_todoStep projects people fp _ []

theorem parse_spec (content fp : List Char) :
    LogEntry.parse content fp = some
      ⟨0, content, specTags '#' content, specTags '@' content,
       specTodos (specTags '#' content) (specTags '@' content) fp content, fp⟩ := by
  simp [LogEntry.parse, extractTags_spec (show ('#' : Char).utf8Size = 1 from rfl),
        extractTags_spec (show ('@' : Char).utf8Size = 1 from rfl), extractTodos_spec]

/-- C9.  Totality of the parser: for every input text and every path,
`LogEntry::parse` returns an entry — in particular every byte slice it
performs (`word[1..]`, `trimmed[2..]`, `trimmed[3..]`, modelled as
`Option`-valued `byteDrop`) falls on a character boundary, so the source
cannot panic. -/
theorem parse_total (content file_path : List Char) :
    ∃ e, LogEntry.parse content file_path = some e :=
  ⟨_, parse_spec content file_path⟩

/-- C7.  The parsed project list is exactly the whitespace-delimited tokens
that start with `#` and, after stripping the marker and trimming characters
that are neither alphanumeric nor `-` nor `_`, are non-empty — in
first-occurrence order with exact-string duplicates dropped; the person list
obeys the identical rule for `@` with an independent dedup set. -/
theorem parse_projects_people_c7 (content file_path : List Char) (e : LogEntry)
    (h : LogEntry.parse content file_path = some e) :
    e.projects = specTags '#' content ∧ e.people = specTags '@' content := by
  rw [parse_spec] at h
  have h2 := Option.some.inj h
  subst h2
  exact ⟨rfl, rfl⟩

/-- C7 witness: the text `"#foo, # #a #b #a @bob @bob"` concretely —
`"#foo,"` yields `"foo"`, the lone `"#"` yields nothing, duplicates are
dropped in first-occurrence order, and people are deduplicated
independently. -/
theorem parse_projects_people_c7_witness :
    LogEntry.parse ("#foo, # #a #b #a @bob @bob".data) [] =
      some ⟨0, ("#foo, # #a #b #a @bob @bob".data),
            ["foo".data, "a".data, "b".data], ["bob".data], [], []⟩ ∧
    (⟨0, ("#foo, # #a #b #a @bob @bob".data),
       ["foo".data, "a".data, "b".data], ["bob".data], [], []⟩ : LogEntry).projects =
      specTags '#' ("#foo, # #a #b #a @bob @bob".data) ∧
    (⟨0, ("#foo, # #a #b #a @bob @bob".data),
       ["foo".data, "a".data, "b".data], ["bob".data], [], []⟩ : LogEntry).people =
      specTags '@' ("#foo, # #a #b #a @bob @bob".data) := by
  have h : LogEntry.parse ("#foo, # #a #b #a @bob @bob".data) [] =
      some ⟨0, ("#foo, # #a #b #a @bob @bob".data),
            ["foo".data, "a".data, "b".data], ["bob".data], [], []⟩ := by decide
  exact ⟨h, (parse_projects_people_c7 _ _ _ h).1, (parse_projects_people_c7 _ _ _ h).2⟩

/-- C8.  The parsed todo list contains, in line order with 0-based line
numbers, one incomplete todo per line whose trimmed form starts with `[]`
(text = remainder after the 2-character marker, trimmed) and one completed
todo per line whose trimmed form starts with `[x]`/`[X]` (remainder after
the 3-character marker, trimmed); every todo carries the entry's full
project and person lists. -/
theorem parse_todos_c8 (content file_path : List Char) (e : LogEntry)
    (h : LogEntry.parse content file_path = some e) :
    e.todos = specTodos e.projects e.people file_path content := by
  rw [parse_spec] at h
  have h2 := Option.some.inj h
  subst h2
  rfl

/-- C8 witness: the text `"x #a @b\n[]\n[x] call"` concretely — the bare
`[]` line yields an empty-text todo (not a skipped one), and both todos
carry the entry's full project and person lists. -/
theorem parse_todos_c8_witness :
    LogEntry.parse ("x #a @b\n[]\n[x] call".data) [] =
      some ⟨0, ("x #a @b\n[]\n[x] call".data), ["a".data], ["b".data],
            [⟨[], false, 1, ["a".data], ["b".data], []⟩,
             ⟨"call".data, true, 2, ["a".data], ["b".data], []⟩], []⟩ ∧
    (⟨0, ("x #a @b\n[]\n[x] call".data), ["a".data], ["b".data],
       [⟨[], false, 1, ["a".data], ["b".data], []⟩,
        ⟨"call".data, true, 2, ["a".data], ["b".data], []⟩], []⟩ : LogEntry).todos =
      specTodos ["a".data] ["b".data] [] ("x #a @b\n[]\n[x] call".data) := by
  have h : LogEntry.parse ("x #a @b\n[]\n[x] call".data) [] =
      some ⟨0, ("x #a @b\n[]\n[x] call".data), ["a".data], ["b".data],
            [⟨[], false, 1, ["a".data], ["b".data], []⟩,
             ⟨"call".data, true, 2, ["a".data], ["b".data], []⟩], []⟩ := by decide
  exact ⟨h, parse_todos_c8 _ _ _ h⟩

/-! ## Replacement lemmas (`Todo::toggle`) -/

theorem replaceAll_nil (pat rep : List Char) : replaceAll pat rep [] = [] := by
  rw [replaceAll]

theorem replaceAll_cons_pos {pat : List Char} (rep : List Char) {c : Char} {cs : List Char}
    (h : pat.isPrefixOf (c :: cs) = true) (hne : pat ≠ []) :
    replaceAll pat rep (c :: cs) = rep ++ replaceAll pat rep ((c :: cs).drop pat.length) := by
  rw [replaceAll, if_pos ⟨h, hne⟩]

theorem replaceAll_cons_neg {pat : List Char} (rep : List Char) {c : Char} {cs : List Char}
    (h : pat.isPrefixOf (c :: cs) = false) :
    replaceAll pat rep (c :: cs) = c :: replaceAll pat rep cs := by
  rw [replaceAll, if_neg (fun hh => by simp [h] at hh)]

theorem replaceFirst_nil (pat rep : List Char) : replaceFirst pat rep [] = [] := by
  rw [replaceFirst]

theorem replaceFirst_cons_pos {pat : List Char} (rep : List Char) {c : Char} {cs : List Char}
    (h : pat.isPrefixOf (c :: cs) = true) (hne : pat ≠ []) :
    replaceFirst pat rep (c :: cs) = rep ++ (c :: cs).drop pat.length := by
  rw [replaceFirst, if_pos ⟨h, hne⟩]

theorem replaceFirst_cons_neg {pat : List Char} (rep : List Char) {c : Char} {cs : List Char}
    (h : pat.isPrefixOf (c :: cs) = false) :
    replaceFirst pat rep (c :: cs) = c :: replaceFirst pat rep cs := by
  rw [replaceFirst, if_neg (fun hh => by simp [h] at hh)]

theorem replaceEvery2_nil (pat1 pat2 rep : List Char) : replaceEvery2 pat1 pat2 rep [] = [] := by
  rw [replaceEvery2]

theorem replaceEvery2_cons_pos1 {pat1 : List Char} (pat2 rep : List Char) {c : Char}
    {cs : List Char} (h : pat1.isPrefixOf (c :: cs) = true) (hne : pat1 ≠ []) :
    replaceEvery2 pat1 pat2 rep (c :: cs) =
      rep ++ replaceEvery2 pat1 pat2 rep ((c :: cs).drop pat1.length) := by
  rw [replaceEvery2, if_pos ⟨h, hne⟩]

theorem replaceEvery2_cons_pos2 (pat1 : List Char) {pat2 : List Char} (rep : List Char)
    {c : Char} {cs : List Char} (h1 : pat1.isPrefixOf (c :: cs) = false)
    (h : pat2.isPrefixOf (c :: cs) = true) (hne : pat2 ≠ []) :
    replaceEvery2 pat1 pat2 rep (c :: cs) =
      rep ++ replaceEvery2 pat1 pat2 rep ((c :: cs).drop pat2.length) := by
  rw [replaceEvery2, if_neg (fun hh => by simp [h1] at hh), if_pos ⟨h, hne⟩]

theorem replaceEvery2_cons_neg (pat1 pat2 rep : List Char) {c : Char} {cs : List Char}
    (h1 : pat1.isPrefixOf (c :: cs) = false) (h2 : pat2.isPrefixOf (c :: cs) = false) :
    replaceEvery2 pat1 pat2 rep (c :: cs) = c :: replaceEvery2 pat1 pat2 rep cs := by
  rw [replaceEvery2, if_neg (fun hh => by simp [h1] at hh),
      if_neg (fun hh => by simp [h2] at hh)]

theorem isPrefixOf_append_self (pat t : List Char) : pat.isPrefixOf (pat ++ t) = true := by
  rw [List.isPrefixOf_iff_prefix]
  exact ⟨t, rfl⟩

theorem notPre_head {ps : List Char} {a c : Char} (hc : (a == c) = false) (t : List Char) :
    ((a :: ps) : List Char).isPrefixOf (c :: t) = false := by
  rw [List.isPrefixOf_cons₂]
  simp [hc]

theorem notPre_second {ps : List Char} {a b d : Char} (hd : (b == d) = false) (t : List Char) :
    ((a :: b :: ps) : List Char).isPrefixOf (a :: d :: t) = false := by
  rw [List.isPrefixOf_cons₂, List.isPrefixOf_cons₂]
  simp [hd]

theorem notPre_third {ps : List Char} {a b e f : Char} (hf : (e == f) = false) (t : List Char) :
    ((a :: b :: e :: ps) : List Char).isPrefixOf (a :: b :: f :: t) = false := by
  rw [List.isPrefixOf_cons₂, List.isPrefixOf_cons₂, List.isPrefixOf_cons₂]
  simp [hf]

theorem not_prefix_X_inner {c : Char} {cs : List Char}
    (hX : ("[X]".data).isPrefixOf (c :: cs) = false) :
    ("[X]".data).isPrefixOf (c :: replaceAll ("[x]".data) ("[]".data) cs) = false := by
  rw [show ("[X]".data : List Char) = '[' :: 'X' :: [']'] from rfl] at hX ⊢
  rw [List.isPrefixOf_cons₂] at hX ⊢
  by_cases hc : (('[' : Char) == c) = true
  · rw [hc, Bool.true_and] at hX ⊢
    cases cs with
    | nil => rw [replaceAll_nil]; exact hX
    | cons d ds =>
      rw [List.isPrefixOf_cons₂] at hX
      by_cases hd : ("[x]".data).isPrefixOf (d :: ds) = true
      · rw [replaceAll_cons_pos _ hd (by decide)]
        rw [show ("[]".data : List Char) = '[' :: [']'] from rfl]
        simp only [List.cons_append, List.singleton_append]
        rw [List.isPrefixOf_cons₂]
        simp [(by decide : (('X' : Char) == '[') = false)]
      · rw [replaceAll_cons_neg _ (Bool.eq_false_iff.mpr hd)]
        rw [List.isPrefixOf_cons₂]
        by_cases hdX : (('X' : Char) == d) = true
        · rw [hdX, Bool.true_and] at hX ⊢
          cases ds with
          | nil => rw [replaceAll_nil]; exact hX
          | cons e es =>
            rw [List.isPrefixOf_cons₂] at hX
            by_cases he : ("[x]".data).isPrefixOf (e :: es) = true
            · rw [replaceAll_cons_pos _ he (by decide)]
              rw [show ("[]".data : List Char) = '[' :: [']'] from rfl]
              simp only [List.cons_append, List.singleton_append]
              rw [List.isPrefixOf_cons₂]
              simp [(by decide : ((']' : Char) == '[') = false)]
            · rw [replaceAll_cons_neg _ (Bool.eq_false_iff.mpr he)]
              rw [List.isPrefixOf_cons₂]
              simpa using hX
        · simp [(by simpa using hdX : (('X' : Char) == d) = false)]
  · simp [(by simpa using hc : (('[' : Char) == c) = false)]

theorem two_pass_aux : ∀ (n : Nat) (s : List Char), s.length ≤ n →
    replaceAll ("[X]".data) ("[]".data) (replaceAll ("[x]".data) ("[]".data) s) =
      replaceEvery2 ("[x]".data) ("[X]".data) ("[]".data) s := by
  intro n
  induction n with
  | zero =>
    intro s hs
    have hnil : s = [] := List.length_eq_zero.mp (Nat.le_zero.mp hs)
    subst hnil
    rw [replaceAll_nil, replaceAll_nil, replaceEvery2_nil]
  | succ n ih =>
    intro s hs
    cases s with
    | nil => rw [replaceAll_nil, replaceAll_nil, replaceEvery2_nil]
    | cons c cs =>
      have hs' : cs.length + 1 ≤ n + 1 := by simpa using hs
      by_cases hx : ("[x]".data).isPrefixOf (c :: cs) = true
      · obtain ⟨r, hr⟩ := List.isPrefixOf_iff_prefix.mp hx
        have hdrop : (c :: cs).drop (("[x]".data).length) = r := by
          rw [← hr]; exact List.drop_left _ _
        have hlen : r.length ≤ n := by
          have h3 := congrArg List.length hr
          simp at h3
          omega
        rw [replaceAll_cons_pos _ hx (by decide), hdrop]
        have houter : replaceAll ("[X]".data) ("[]".data)
              (("[]".data) ++ replaceAll ("[x]".data) ("[]".data) r) =
            ("[]".data) ++ replaceAll ("[X]".data) ("[]".data)
              (replaceAll ("[x]".data) ("[]".data) r) := by
          show replaceAll ("[X]".data) ("[]".data)
              ('[' :: ']' :: replaceAll ("[x]".data) ("[]".data) r) =
            '[' :: ']' :: replaceAll ("[X]".data) ("[]".data)
              (replaceAll ("[x]".data) ("[]".data) r)
          rw [replaceAll_cons_neg _ (@notPre_second [']'] '[' 'X' ']' (by decide) _)]
          rw [replaceAll_cons_neg _ (@notPre_head ['X', ']'] '[' ']' (by decide) _)]
        rw [houter]
        rw [replaceEvery2_cons_pos1 _ _ hx (by decide), hdrop]
        rw [ih r hlen]
      · by_cases hXp : ("[X]".data).isPrefixOf (c :: cs) = true
        · obtain ⟨r, hr⟩ := List.isPrefixOf_iff_prefix.mp hXp
          have hcons : c :: cs = '[' :: 'X' :: ']' :: r := by rw [← hr]; rfl
          have hlen : r.length ≤ n := by
            have h3 := congrArg List.length hr
            simp at h3
            omega
          rw [hcons]
          have hinner : replaceAll ("[x]".data) ("[]".data) ('[' :: 'X' :: ']' :: r) =
              '[' :: 'X' :: ']' :: replaceAll ("[x]".data) ("[]".data) r := by
            rw [replaceAll_cons_neg _ (@notPre_second [']'] '[' 'x' 'X' (by decide) (']' :: r))]
            rw [replaceAll_cons_neg _ (@notPre_head ['x', ']'] '[' 'X' (by decide) (']' :: r))]
            rw [replaceAll_cons_neg _ (@notPre_head ['x', ']'] '[' ']' (by decide) r)]
          rw [hinner]
          have houter : replaceAll ("[X]".data) ("[]".data)
                ('[' :: 'X' :: ']' :: replaceAll ("[x]".data) ("[]".data) r) =
              ("[]".data) ++ replaceAll ("[X]".data) ("[]".data)
                (replaceAll ("[x]".data) ("[]".data) r) := by
            have hpre : ("[X]".data).isPrefixOf
                ('[' :: 'X' :: ']' :: replaceAll ("[x]".data) ("[]".data) r) = true :=
              isPrefixOf_append_self ("[X]".data) _
            rw [replaceAll_cons_pos _ hpre (by decide)]
            rfl
          rw [houter]
          have hx' : ("[x]".data).isPrefixOf ('[' :: 'X' :: ']' :: r) = false :=
            @notPre_second [']'] '[' 'x' 'X' (by decide) (']' :: r)
          have hXp' : ("[X]".data).isPrefixOf ('[' :: 'X' :: ']' :: r) = true :=
            isPrefixOf_append_self ("[X]".data) r
          rw [replaceEvery2_cons_pos2 _ _ hx' hXp' (by decide)]
          rw [show (('[' : Char) :: 'X' :: ']' :: r).drop (("[X]".data).length) = r from rfl]
          rw [ih r hlen]
        · have hlen : cs.length ≤ n := by omega
          rw [replaceAll_cons_neg _ (Bool.eq_false_iff.mpr hx)]
          rw [replaceAll_cons_neg _ (not_prefix_X_inner (Bool.eq_false_iff.mpr hXp))]
          rw [replaceEvery2_cons_neg _ _ _ (Bool.eq_false_iff.mpr hx)
                (Bool.eq_false_iff.mpr hXp)]
          rw [ih cs hlen]

theorem toggleLine_amended (completed : Bool) (line : List Char) :
    toggleLine completed line = amendedToggleLine completed line := by
  cases completed with
  | true =>
    show replaceAll ("[X]".data) ("[]".data) (replaceAll ("[x]".data) ("[]".data) line) =
      replaceEvery2 ("[x]".data) ("[X]".data) ("[]".data) line
    exact two_pass_aux line.length line le_rfl
  | false => rfl

/-- C2.  Counterexample to the claim as stated: for a completed todo at line
0 of the file `"[x] a [x]"`, the code (Rust `str::replace`) rewrites every
occurrence, producing `"[] a []"`, while the claim's "first occurrence"
rewrite would produce `"[] a [x]"`. -/
theorem toggle_c2_counterexample :
    Todo.toggle ⟨"a".data, true, 0, [], [], []⟩ ("[x] a [x]".data) =
      (("[] a []".data), ⟨"a".data, false, 0, [], [], []⟩) ∧
    claimToggleContent true 0 ("[x] a [x]".data) = ("[] a [x]".data) ∧
    ("[] a []".data : List Char) ≠ ("[] a [x]".data) := by
  refine ⟨?_, by decide, by decide⟩
  simp [Todo.toggle, toggleContent, toggleLine, rustLines, splitNl, splitP, joinNl,
        replaceAll, rustTrim, rustTrimMatches, rustIsWhitespace, stripCR,
        List.rdropWhile]

/-- C2 (amended).  For every Todo and every on-disk file content, toggling
rewrites only the line at the Todo's `line_number`: if the Todo is completed,
every occurrence of `[x]` or `[X]` on that line (scanning left to right) is
replaced with `[]`; if it is incomplete and the trimmed line starts with
`[]`, only the first `[]` is replaced with `[x]`; in every other case the
line is left unchanged; all other lines of the file are unchanged. -/
theorem toggle_c2_amended (t : Todo) (content : List Char) :
    (Todo.toggle t content).1 =
      amendedToggleContent t.completed t.line_number content := by
  show toggleContent t.completed t.line_number content =
    amendedToggleContent t.completed t.line_number content
  unfold toggleContent amendedToggleContent
  congr 1
  apply List.map_congr_left
  intro p _
  by_cases hp : p.1 = t.line_number <;> simp [hp, toggleLine_amended]

/-! ## Line-splitting lemmas -/

theorem splitP_ne_nil (p : Char → Bool) (s : List Char) : splitP p s ≠ [] := by
  cases s with
  | nil => simp [splitP]
  | cons c cs => by_cases hc : p c <;> simp [splitP, hc]

theorem splitP_struct (p : Char → Bool) (s : List Char) :
    splitP p s = (splitP p s).headD [] :: (splitP p s).tail := by
  cases h : splitP p s with
  | nil => exact absurd h (splitP_ne_nil p s)
  | cons a t => rfl

theorem getLastD_cons_of_ne_nil {α : Type} {S : List α} (h : S ≠ []) (x d : α) :
    (x :: S).getLastD d = S.getLastD d := by
  rw [List.getLastD_cons]
  rw [List.getLastD_eq_getLast?, List.getLastD_eq_getLast?]
  cases hS : S.getLast? with
  | none => exact absurd (List.getLast?_eq_none.mp hS) h
  | some y => rfl

theorem splitP_append (p : Char → Bool) (a b : List Char) :
    splitP p (a ++ b) = (splitP p a).dropLast ++
      (((splitP p a).getLastD []) ++ ((splitP p b).headD [])) :: (splitP p b).tail := by
  induction a with
  | nil =>
    show splitP p b =
      [] ++ ((([] : List Char)) ++ ((splitP p b).headD [])) :: (splitP p b).tail
    simpa using splitP_struct p b
  | cons c a' ih =>
    by_cases hc : p c
    · show splitP p (c :: (a' ++ b)) = _
      rw [splitP, if_pos hc, ih]
      have hS := splitP_ne_nil p a'
      rw [show splitP p (c :: a') = [] :: splitP p a' from by rw [splitP, if_pos hc]]
      rw [List.dropLast_cons_of_ne_nil hS, getLastD_cons_of_ne_nil hS]
      rfl
    · show splitP p (c :: (a' ++ b)) = _
      rw [splitP, if_neg hc, ih]
      rw [show splitP p (c :: a') =
            (c :: (splitP p a').headD []) :: (splitP p a').tail from by
          rw [splitP, if_neg hc]]
      rcases hS : splitP p a' with _ | ⟨s0, S'⟩
      · exact absurd hS (splitP_ne_nil p a')
      · cases S' with
        | nil => simp
        | cons s1 S'' => simp

theorem length_splitP (p : Char → Bool) (s : List Char) :
    (splitP p s).length = s.countP p + 1 := by
  induction s with
  | nil => simp [splitP]
  | cons c cs ih =>
    by_cases hc : p c
    · rw [splitP, if_pos hc]
      simp [List.countP_cons, hc, ih]
    · rw [splitP, if_neg hc]
      have hpos : 0 < (splitP p cs).length :=
        List.length_pos.mpr (splitP_ne_nil p cs)
      have hcp : (c :: cs).countP p = cs.countP p := by
        simp [List.countP_cons, hc]
      rw [hcp]
      simp only [List.length_cons, List.length_tail]
      omega

theorem joinNl_cons_of_ne_nil {ls : List (List Char)} (h : ls ≠ []) (x : List Char) :
    joinNl (x :: ls) = x ++ '\n' :: joinNl ls := by
  cases ls with
  | nil => exact absurd rfl h
  | cons y ys => rfl

theorem joinNl_splitNl (s : List Char) : joinNl (splitNl s) = s := by
  have main : ∀ t : List Char, joinNl (splitP (fun c => c == '\n') t) = t := by
    intro t
    induction t with
    | nil => rfl
    | cons c cs ih =>
      by_cases hc : c = '\n'
      · subst hc
        rw [splitP, if_pos (by simp)]
        rw [joinNl_cons_of_ne_nil (splitP_ne_nil _ cs)]
        simpa using ih
      · rw [splitP, if_neg (by simp [hc])]
        rcases hS : splitP (fun c => c == '\n') cs with _ | ⟨s0, S'⟩
        · exact absurd hS (splitP_ne_nil _ cs)
        · rw [hS] at ih
          cases S' with
          | nil =>
            simp only [List.headD_cons, List.tail_cons]
            show joinNl [c :: s0] = c :: cs
            show c :: s0 = c :: cs
            rw [show joinNl [s0] = s0 from rfl] at ih
            rw [ih]
          | cons s1 S'' =>
            simp only [List.headD_cons, List.tail_cons]
            rw [joinNl_cons_of_ne_nil (by simp) (c :: s0)]
            rw [joinNl_cons_of_ne_nil (by simp) s0] at ih
            simp only [List.cons_append]
            rw [ih]
  exact main s

theorem lineStartsSum_append (A B : List (List Char)) :
    lineStartsSum (A ++ B) = lineStartsSum A + lineStartsSum B := by
  simp [lineStartsSum]

theorem lineStartsSum_joinNl (parts : List (List Char)) (h : parts ≠ []) :
    lineStartsSum parts = (joinNl parts).length + 1 := by
  induction parts with
  | nil => exact absurd rfl h
  | cons x ls ih =>
    cases ls with
    | nil => simp [lineStartsSum, joinNl]
    | cons y ys =>
      rw [joinNl_cons_of_ne_nil (by simp)]
      have := ih (by simp)
      simp only [lineStartsSum, List.map_cons, List.sum_cons] at *
      simp only [List.length_append, List.length_cons]
      omega

theorem splitP_eq_single {p : Char → Bool} {s : List Char}
    (h : ∀ c ∈ s, p c = false) : splitP p s = [s] := by
  induction s with
  | nil => rfl
  | cons c cs ih =>
    rw [splitP, if_neg (by simp [h c (by simp)])]
    rw [ih (fun d hd => h d (by simp [hd]))]
    rfl

theorem splitNl_joinNl {parts : List (List Char)} (h : parts ≠ [])
    (hn : ∀ l ∈ parts, ∀ c ∈ l, c ≠ '\n') : splitNl (joinNl parts) = parts := by
  induction parts with
  | nil => exact absurd rfl h
  | cons x ls ih =>
    cases ls with
    | nil =>
      show splitNl (joinNl [x]) = [x]
      have : joinNl [x] = x := rfl
      rw [this]
      exact splitP_eq_single (fun c hc => by
        simpa using hn x (by simp) c hc)
    | cons y ys =>
      rw [joinNl_cons_of_ne_nil (by simp)]
      show splitP (fun c => c == '\n') (x ++ '\n' :: joinNl (y :: ys)) = x :: y :: ys
      have hx : ∀ c ∈ x, (fun c => c == '\n') c = false := fun c hc => by
        simpa using hn x (by simp) c hc
      rw [show (x ++ '\n' :: joinNl (y :: ys)) =
            x ++ ('\n' :: joinNl (y :: ys)) from rfl]
      rw [splitP_append]
      rw [splitP_eq_single hx]
      rw [show splitP (fun c => c == '\n') ('\n' :: joinNl (y :: ys)) =
            [] :: splitNl (joinNl (y :: ys)) from by rw [splitP, if_pos (by simp)]; rfl]
      rw [ih (by simp) (fun l hl => hn l (by simp [hl]))]
      simp

theorem mem_splitP {p : Char → Bool} {s l : List Char} {c : Char}
    (hl : l ∈ splitP p s) (hc : c ∈ l) : c ∈ s ∧ p c = false := by
  induction s generalizing l with
  | nil =>
    simp [splitP] at hl
    subst hl
    simp at hc
  | cons d ds ih =>
    by_cases hd : p d
    · rw [splitP, if_pos hd] at hl
      rcases List.mem_cons.mp hl with h1 | h1
      · subst h1; simp at hc
      · have := ih h1 hc
        exact ⟨by simp [this.1], this.2⟩
    · rw [splitP, if_neg hd] at hl
      rcases List.mem_cons.mp hl with h1 | h1
      · subst h1
        rcases List.mem_cons.mp hc with h2 | h2
        · subst h2; exact ⟨by simp, Bool.eq_false_iff.mpr hd⟩
        · have hmem : (splitP p ds).headD [] ∈ splitP p ds := by
            rw [splitP_struct p ds]; simp
          have := ih hmem h2
          exact ⟨by simp [this.1], this.2⟩
      · have hmem : l ∈ splitP p ds := by
          rw [splitP_struct p ds]
          exact List.mem_cons_of_mem _ h1
        have := ih hmem hc
        exact ⟨by simp [this.1], this.2⟩

theorem splitNl_eq (s : List Char) : splitNl s = splitP (fun c => c == '\n') s := rfl

theorem take_append_le {α : Type} (l₁ l₂ : List α) (n : Nat) (h : n ≤ l₁.length) :
    (l₁ ++ l₂).take n = l₁.take n := by
  rw [List.take_append_eq_append_take, Nat.sub_eq_zero_of_le h, List.take_zero,
      List.append_nil]

theorem getD_last_eq_getLastD {α : Type} (l : List α) (d : α) :
    l.getD (l.length - 1) d = l.getLastD d := by
  rw [List.getD_eq_getElem?_getD, List.getLastD_eq_getLast?, List.getLast?_eq_getElem?]

theorem lineStartsSum_single (x : List Char) : lineStartsSum [x] = x.length + 1 := by
  simp [lineStartsSum]

theorem line_col_bridge (content : List Char) (pos : Nat) (h : pos ≤ content.length) :
    ((splitNl content).take ((splitNl (content.take pos)).length - 1) =
        (splitNl (content.take pos)).dropLast) ∧
    (∀ j, j ≤ (splitNl (content.take pos)).length - 1 →
        (splitNl content).take j = (splitNl (content.take pos)).take j) ∧
    (∀ j, j < (splitNl (content.take pos)).length - 1 →
        (splitNl content).getD j [] = (splitNl (content.take pos)).getD j []) ∧
    ((splitNl (content.take pos)).getLastD []).length +
        lineStartsSum ((splitNl (content.take pos)).dropLast) = pos := by
  simp only [splitNl_eq]
  have hPne := splitP_ne_nil (fun c => c == '\n') (content.take pos)
  have hsplit := splitP_append (fun c => c == '\n') (content.take pos) (content.drop pos)
  rw [List.take_append_drop] at hsplit
  have hdroplen : ((splitP (fun c => c == '\n') (content.take pos)).dropLast).length =
      (splitP (fun c => c == '\n') (content.take pos)).length - 1 := by
    rw [List.length_dropLast]
  refine ⟨?_, ?_, ?_, ?_⟩
  · rw [hsplit, take_append_le _ _ _ (by rw [hdroplen])]
    rw [← hdroplen, List.take_length]
  · intro j hj
    rw [hsplit, take_append_le _ _ _ (by omega)]
    rw [List.dropLast_eq_take, List.take_take, Nat.min_def, if_pos (by omega)]
  · intro j hj
    rw [hsplit, List.getD_eq_getElem?_getD,
        List.getElem?_append_left (by rw [hdroplen]; omega)]
    rw [List.dropLast_eq_take, List.getElem?_take_of_lt (by omega),
        ← List.getD_eq_getElem?_getD]
  · have hjoin : joinNl (splitP (fun c => c == '\n') (content.take pos)) =
        content.take pos := joinNl_splitNl (content.take pos)
    have hlen_take : (content.take pos).length = pos := by
      rw [List.length_take]; omega
    have hsum : lineStartsSum (splitP (fun c => c == '\n') (content.take pos)) = pos + 1 := by
      rw [lineStartsSum_joinNl _ hPne, hjoin, hlen_take]
    have hdecomp := List.dropLast_concat_getLast hPne
    have hsplitsum : lineStartsSum ((splitP (fun c => c == '\n') (content.take pos)).dropLast) +
        (((splitP (fun c => c == '\n') (content.take pos)).getLast hPne).length + 1) =
        pos + 1 := by
      rw [← lineStartsSum_single, ← lineStartsSum_append, hdecomp, hsum]
    have hlastD : (splitP (fun c => c == '\n') (content.take pos)).getLastD [] =
        (splitP (fun c => c == '\n') (content.take pos)).getLast hPne := by
      rw [List.getLastD_eq_getLast?, List.getLast?_eq_getLast _ hPne]
      rfl
    rw [hlastD]
    omega

/-- C5.  Vertical cursor movement clamps the column: `move_up` is a no-op on
the first line, otherwise the new offset is the character count of all lines
strictly before the previous line (each plus one for its newline) plus the
current column clamped to the previous line's length; `move_down` is
symmetric on the next line.  Line index and column are derived from the text
preceding the cursor. -/
theorem move_vertical_c5 (s : App)
    (h : s.log_cursor_pos ≤ s.current_log.content.length) :
    (App.move_cursor_up s).log_cursor_pos =
      specMoveUp s.current_log.content s.log_cursor_pos ∧
    (App.move_cursor_down s).log_cursor_pos =
      specMoveDown s.current_log.content s.log_cursor_pos := by
  obtain ⟨f1, f2, f3, f4⟩ := line_col_bridge s.current_log.content s.log_cursor_pos h
  have hPne : splitNl (s.current_log.content.take s.log_cursor_pos) ≠ [] := by
    rw [splitNl_eq]
    exact splitP_ne_nil _ _
  have hPpos : 0 < (splitNl (s.current_log.content.take s.log_cursor_pos)).length :=
    List.length_pos.mpr hPne
  have hli : (s.current_log.content.take s.log_cursor_pos).count '\n' =
      (splitNl (s.current_log.content.take s.log_cursor_pos)).length - 1 := by
    rw [splitNl_eq, length_splitP]
    simp [List.count_eq_countP]
  have hcol : ((splitNl (s.current_log.content.take s.log_cursor_pos)).getD
      ((splitNl (s.current_log.content.take s.log_cursor_pos)).length - 1) []).length =
      s.log_cursor_pos - lineStartsSum ((splitNl s.current_log.content).take
        ((splitNl (s.current_log.content.take s.log_cursor_pos)).length - 1)) := by
    rw [getD_last_eq_getLastD, f1]
    omega
  constructor
  · simp only [App.move_cursor_up, specMoveUp, hli]
    by_cases hone : (splitNl (s.current_log.content.take s.log_cursor_pos)).length ≤ 1
    · rw [if_pos hone, if_pos (by omega)]
    · rw [if_neg hone, if_neg (by omega)]
      simp only [lineStartsSum]
      rw [f2 _ (by omega), f3 _ (by omega), hcol]
      simp [lineStartsSum]
  · simp only [App.move_cursor_down, specMoveDown, hli]
    by_cases hlast : (splitNl (s.current_log.content.take s.log_cursor_pos)).length - 1 ≥
        (splitNl s.current_log.content).length - 1
    · rw [if_pos hlast, if_pos hlast]
    · rw [if_neg hlast, if_neg hlast]
      simp only [lineStartsSum]
      rw [hcol]
      simp [lineStartsSum]

/-- C5 witness: buffer `"abcdef\nxy"` with the cursor at offset 6 (end of the
first line); moving down lands at offset 9 (column 6 clamps to the length 2
of `"xy"`). -/
theorem move_vertical_c5_witness :
    (6 ≤ ("abcdef\nxy".data : List Char).length) ∧
    (App.move_cursor_down { appInit with
        current_log := { LogEntry.new with content := "abcdef\nxy".data },
        log_cursor_pos := 6 }).log_cursor_pos = 9 := by
  constructor
  · decide
  · rw [(move_vertical_c5 { appInit with
        current_log := { LogEntry.new with content := "abcdef\nxy".data },
        log_cursor_pos := 6 } (by decide)).2]
    decide

/-! ## Round-trip lemmas for `Todo::toggle` -/

theorem splitNl_getLast_ne_nil : ∀ (s : List Char), s ≠ [] → s.getLast? ≠ some '\n' →
    (splitNl s).getLast? ≠ some [] := by
  intro s
  induction s with
  | nil => intro h; exact absurd rfl h
  | cons c cs ih =>
    intro _ hlast
    cases cs with
    | nil =>
      have hc : c ≠ '\n' := by
        intro hc; subst hc; exact hlast rfl
      rw [splitNl_eq, splitP, if_neg (by simp [hc])]
      simp [splitP]
    | cons d ds =>
      have hlast' : (d :: ds).getLast? ≠ some '\n' := by
        rw [List.getLast?_cons_cons] at hlast; exact hlast
      have ihh := ih (by simp) hlast'
      rw [splitNl_eq] at ihh
      by_cases hc : c = '\n'
      · subst hc
        rw [splitNl_eq, splitP, if_pos (by simp)]
        rcases hS : splitP (fun c => c == '\n') (d :: ds) with _ | ⟨s0, S'⟩
        · exact absurd hS (splitP_ne_nil _ _)
        · rw [List.getLast?_cons_cons]
          rw [hS] at ihh
          exact ihh
      · rw [splitNl_eq, splitP, if_neg (by simp [hc])]
        rcases hS : splitP (fun c => c == '\n') (d :: ds) with _ | ⟨s0, S'⟩
        · exact absurd hS (splitP_ne_nil _ _)
        · rw [hS] at ihh
          cases S' with
          | nil => simp
          | cons s1 S'' =>
            simp only [List.headD_cons, List.tail_cons]
            rw [List.getLast?_cons_cons]
            rw [List.getLast?_cons_cons] at ihh
            exact ihh

theorem mem_of_getLast?_eq {α : Type} {l : List α} {a : α} (h : l.getLast? = some a) :
    a ∈ l := by
  have hne : l ≠ [] := by
    intro hl; subst hl; simp at h
  rw [List.getLast?_eq_getLast l hne] at h
  have hmem := List.getLast_mem hne
  rwa [Option.some.inj h] at hmem

theorem map_stripCR_id {L : List (List Char)} (h : ∀ l ∈ L, l.getLast? ≠ some '\r') :
    L.map stripCR = L := by
  have h2 : L.map stripCR = L.map id := by
    apply List.map_congr_left
    intro l hl
    show stripCR l = l
    unfold stripCR
    rw [if_neg (h l hl)]
  rw [h2, List.map_id]

theorem splitNl_parts_getLast_ne_CR {content : List Char} (hCR : '\r' ∉ content) :
    ∀ l ∈ splitNl content, l.getLast? ≠ some '\r' := by
  intro l hl heq
  have hmem : ('\r' : Char) ∈ l := mem_of_getLast?_eq heq
  rw [splitNl_eq] at hl
  exact hCR (mem_splitP hl hmem).1

theorem rustLines_eq_splitNl {content : List Char} (hCR : '\r' ∉ content)
    (hne : content ≠ []) (hNL : content.getLast? ≠ some '\n') :
    rustLines content = splitNl content := by
  have hPne : splitNl content ≠ [] := by
    rw [splitNl_eq]; exact splitP_ne_nil _ _
  show (if (splitNl content).getLast? = some [] then
      ((splitNl content).dropLast).map stripCR
    else (((splitNl content).dropLast).map stripCR) ++ [(splitNl content).getLastD []]) =
      splitNl content
  rw [if_neg (splitNl_getLast_ne_nil content hne hNL)]
  rw [map_stripCR_id (fun l hl => splitNl_parts_getLast_ne_CR hCR l
        ((List.dropLast_sublist (splitNl content)).mem hl))]
  rw [show (splitNl content).getLastD [] = (splitNl content).getLast hPne from by
        rw [List.getLastD_eq_getLast?, List.getLast?_eq_getLast _ hPne]; rfl]
  exact List.dropLast_concat_getLast hPne

theorem rustLines_joinNl {parts : List (List Char)} (hne : parts ≠ [])
    (hnl : ∀ l ∈ parts, ∀ c ∈ l, c ≠ '\n')
    (hcr : ∀ l ∈ parts, l.getLast? ≠ some '\r')
    (hlast : parts.getLast? ≠ some []) :
    rustLines (joinNl parts) = parts := by
  have hsplit : splitNl (joinNl parts) = parts := splitNl_joinNl hne hnl
  show (if (splitNl (joinNl parts)).getLast? = some [] then
      ((splitNl (joinNl parts)).dropLast).map stripCR
    else (((splitNl (joinNl parts)).dropLast).map stripCR) ++
      [(splitNl (joinNl parts)).getLastD []]) = parts
  rw [hsplit, if_neg hlast]
  rw [map_stripCR_id (fun l hl => hcr l ((List.dropLast_sublist parts).mem hl))]
  rw [show parts.getLastD [] = parts.getLast hne from by
        rw [List.getLastD_eq_getLast?, List.getLast?_eq_getLast _ hne]; rfl]
  exact List.dropLast_concat_getLast hne

theorem enumFrom_map_ite {α : Type} (f : α → α) (d : α) :
    ∀ (l : List α) (n k : Nat),
      (l.enumFrom n).map (fun p => if p.1 = k then f p.2 else p.2) =
        if n ≤ k then l.set (k - n) (f (l.getD (k - n) d)) else l := by
  intro l
  induction l with
  | nil =>
    intro n k
    by_cases h : n ≤ k <;> simp [h]
  | cons a l' ih =>
    intro n k
    rw [List.enumFrom_cons, List.map_cons]
    by_cases hnk : n = k
    · subst hnk
      rw [if_pos le_rfl, ih (n + 1) n, if_neg (Nat.not_succ_le_self n)]
      simp
    · simp only [if_neg hnk]
      rw [ih (n + 1) k]
      by_cases hle : n ≤ k
      · rw [if_pos (show n + 1 ≤ k by omega), if_pos hle,
            show k - n = (k - (n + 1)) + 1 by omega]
        simp [List.getD_cons_succ]
      · rw [if_neg (show ¬(n + 1 ≤ k) by omega), if_neg hle]

theorem enum_map_ite_set {α : Type} (f : α → α) (d : α) (l : List α) (k : Nat) :
    l.enum.map (fun p => if p.1 = k then f p.2 else p.2) =
      l.set k (f (l.getD k d)) := by
  rw [List.enum_eq_enumFrom, enumFrom_map_ite f d l 0 k, if_pos (Nat.zero_le k)]
  simp

theorem set_getD_self {α : Type} (l : List α) (k : Nat) (d : α) (h : k < l.length) :
    l.set k (l.getD k d) = l := by
  apply List.ext_getElem?
  intro m
  by_cases hm : k = m
  · subst hm
    rw [List.getElem?_set_self h, List.getD_eq_getElem?_getD,
        List.getElem?_eq_getElem h]
    rfl
  · rw [List.getElem?_set_ne hm]

theorem getD_set_self {α : Type} {l : List α} {k : Nat} {b : α} (d : α)
    (h : k < l.length) : (l.set k b).getD k d = b := by
  rw [List.getD_eq_getElem?_getD, List.getElem?_set_self h]
  rfl

theorem getLast?_set {α : Type} {l : List α} {k : Nat} {b : α} (h : k < l.length) :
    (l.set k b).getLast? = if k = l.length - 1 then some b else l.getLast? := by
  rw [List.getLast?_eq_getElem?, List.getLast?_eq_getElem?, List.length_set]
  by_cases hk : k = l.length - 1
  · rw [if_pos hk, ← hk, List.getElem?_set_self h]
  · rw [if_neg hk, List.getElem?_set_ne hk]

theorem rdropWhile_append_rtakeWhile {α : Type} (p : α → Bool) (l : List α) :
    l.rdropWhile p ++ l.rtakeWhile p = l := by
  rw [List.rdropWhile, List.rtakeWhile, ← List.reverse_append,
      List.takeWhile_append_dropWhile, List.reverse_reverse]

theorem rustTrim_decomp (s : List Char) : ∃ u v, s = u ++ rustTrim s ++ v ∧
    (∀ c ∈ u, rustIsWhitespace c = true) ∧ (∀ c ∈ v, rustIsWhitespace c = true) := by
  refine ⟨s.takeWhile rustIsWhitespace,
          (s.dropWhile rustIsWhitespace).rtakeWhile rustIsWhitespace, ?_, ?_, ?_⟩
  · show s = s.takeWhile rustIsWhitespace ++
      ((s.dropWhile rustIsWhitespace).rdropWhile rustIsWhitespace) ++ _
    conv_lhs => rw [← List.takeWhile_append_dropWhile (p := rustIsWhitespace) (l := s)]
    rw [List.append_assoc, rdropWhile_append_rtakeWhile]
  · intro c hc; exact List.mem_takeWhile_imp hc
  · intro c hc; exact List.mem_rtakeWhile_imp hc

theorem dropWhile_append_of_neg {p : Char → Bool} {x : Char} (hx : p x = false)
    (A t : List Char) : List.dropWhile p (A ++ x :: t) = List.dropWhile p A ++ x :: t := by
  induction A with
  | nil => simp [List.dropWhile_cons, hx]
  | cons a A' ih =>
    by_cases ha : p a
    · simp [List.dropWhile_cons, ha, ih]
    · simp [List.dropWhile_cons, ha]

theorem rdropWhile_append_of_neg {p : Char → Bool} {x : Char} (hx : p x = false)
    (A t : List Char) : (A ++ x :: t).rdropWhile p = A ++ x :: t.rdropWhile p := by
  rw [List.rdropWhile, List.rdropWhile]
  rw [List.reverse_append, List.reverse_cons, List.append_assoc, List.singleton_append]
  rw [dropWhile_append_of_neg hx]
  simp

theorem rustTrim_ws_bracket {u : List Char} (r : List Char)
    (hu : ∀ c ∈ u, rustIsWhitespace c = true) :
    rustTrim (u ++ '[' :: ']' :: r) = '[' :: ']' :: r.rdropWhile rustIsWhitespace := by
  unfold rustTrim rustTrimMatches
  rw [List.dropWhile_append_of_pos hu]
  have h1 : rustIsWhitespace '[' = false := by decide
  simp only [List.dropWhile_cons, h1, Bool.false_eq_true, if_false]
  rw [show ('[' :: ']' :: r) = ['['] ++ ']' :: r from rfl]
  rw [rdropWhile_append_of_neg (show rustIsWhitespace ']' = false by decide)]
  rfl

theorem trim_bracket_isPrefixOf {u : List Char} (r : List Char)
    (hu : ∀ c ∈ u, rustIsWhitespace c = true) :
    ("[]".data).isPrefixOf (rustTrim (u ++ '[' :: ']' :: r)) = true := by
  rw [rustTrim_ws_bracket r hu]
  exact isPrefixOf_append_self ("[]".data) _

theorem replaceAll_bracket_pat {pat rep : List Char} (hpat : pat.head? = some '[') :
    ∀ {r : List Char}, '[' ∉ r → replaceAll pat rep r = r := by
  cases pat with
  | nil => simp at hpat
  | cons p ps =>
    have hp : p = '[' := by simpa using hpat
    subst hp
    intro r
    induction r with
    | nil => intro _; exact replaceAll_nil _ _
    | cons c cs ih =>
      intro h
      have hc : (('[' : Char) == c) = false := by
        simp only [beq_eq_false_iff_ne, ne_eq]
        intro he
        exact h (he ▸ List.mem_cons_self c cs)
      rw [replaceAll_cons_neg _ (notPre_head hc cs),
          ih (fun hm => h (List.mem_cons_of_mem c hm))]

theorem replaceAll_ws_append {pat rep : List Char} (hpat : pat.head? = some '[')
    {u : List Char} (hu : '[' ∉ u) (s : List Char) :
    replaceAll pat rep (u ++ s) = u ++ replaceAll pat rep s := by
  cases pat with
  | nil => simp at hpat
  | cons p ps =>
    have hp : p = '[' := by simpa using hpat
    subst hp
    induction u with
    | nil => simp
    | cons c cs ih =>
      have hc : (('[' : Char) == c) = false := by
        simp only [beq_eq_false_iff_ne, ne_eq]
        intro he
        exact hu (he ▸ List.mem_cons_self c cs)
      rw [List.cons_append, replaceAll_cons_neg _ (notPre_head hc _),
          ih (fun hm => hu (List.mem_cons_of_mem c hm))]
      rfl

theorem replaceFirst_ws_append {pat rep : List Char} (hpat : pat.head? = some '[')
    {u : List Char} (hu : '[' ∉ u) (s : List Char) :
    replaceFirst pat rep (u ++ s) = u ++ replaceFirst pat rep s := by
  cases pat with
  | nil => simp at hpat
  | cons p ps =>
    have hp : p = '[' := by simpa using hpat
    subst hp
    induction u with
    | nil => simp
    | cons c cs ih =>
      have hc : (('[' : Char) == c) = false := by
        simp only [beq_eq_false_iff_ne, ne_eq]
        intro he
        exact hu (he ▸ List.mem_cons_self c cs)
      rw [List.cons_append, replaceFirst_cons_neg _ (notPre_head hc _),
          ih (fun hm => hu (List.mem_cons_of_mem c hm))]
      rfl

theorem replaceAll_head_match {pat rep : List Char} (hp : pat ≠ []) (r : List Char) :
    replaceAll pat rep (pat ++ r) = rep ++ replaceAll pat rep r := by
  cases pat with
  | nil => exact absurd rfl hp
  | cons p ps =>
    have hpre : (p :: ps).isPrefixOf (p :: (ps ++ r)) = true :=
      isPrefixOf_append_self (p :: ps) r
    rw [show (p :: ps) ++ r = p :: (ps ++ r) from rfl]
    rw [replaceAll_cons_pos _ hpre (by simp)]
    rw [show (p :: (ps ++ r)).drop ((p :: ps).length) = r from by
          rw [show (p :: (ps ++ r)) = (p :: ps) ++ r from rfl]
          exact List.drop_left _ _]

theorem replaceFirst_head_match {pat rep : List Char} (hp : pat ≠ []) (r : List Char) :
    replaceFirst pat rep (pat ++ r) = rep ++ r := by
  cases pat with
  | nil => exact absurd rfl hp
  | cons p ps =>
    have hpre : (p :: ps).isPrefixOf (p :: (ps ++ r)) = true :=
      isPrefixOf_append_self (p :: ps) r
    rw [show (p :: ps) ++ r = p :: (ps ++ r) from rfl]
    rw [replaceFirst_cons_pos _ hpre (by simp)]
    rw [show (p :: (ps ++ r)).drop ((p :: ps).length) = r from by
          rw [show (p :: (ps ++ r)) = (p :: ps) ++ r from rfl]
          exact List.drop_left _ _]

theorem replX_closed {r : List Char} (hr : '[' ∉ r) :
    replaceAll ("[X]".data) ("[]".data) (("[]".data) ++ r) = ("[]".data) ++ r := by
  show replaceAll ("[X]".data) ("[]".data) ('[' :: ']' :: r) = '[' :: ']' :: r
  rw [replaceAll_cons_neg _ (@notPre_second [']'] '[' 'X' ']' (by decide) r),
      replaceAll_cons_neg _ (@notPre_head ['X', ']'] '[' ']' (by decide) r)]
  rw [replaceAll_bracket_pat (show ("[X]".data).head? = some '[' from rfl) hr]

theorem toggleLine_rt {u r : List Char}
    (hu_ws : ∀ c ∈ u, rustIsWhitespace c = true) (hr : '[' ∉ r) :
    toggleLine true (u ++ (("[x]".data) ++ r)) = u ++ (("[]".data) ++ r) ∧
    toggleLine false (u ++ (("[]".data) ++ r)) = u ++ (("[x]".data) ++ r) := by
  have hu : '[' ∉ u := fun hm => absurd (hu_ws '[' hm) (by decide)
  constructor
  · show replaceAll ("[X]".data) ("[]".data)
        (replaceAll ("[x]".data) ("[]".data) (u ++ (("[x]".data) ++ r))) =
      u ++ (("[]".data) ++ r)
    rw [replaceAll_ws_append (show ("[x]".data).head? = some '[' from rfl) hu,
        replaceAll_head_match (by decide) r,
        replaceAll_bracket_pat (show ("[x]".data).head? = some '[' from rfl) hr,
        replaceAll_ws_append (show ("[X]".data).head? = some '[' from rfl) hu,
        replX_closed hr]
  · have hguard : ("[]".data).isPrefixOf (rustTrim (u ++ (("[]".data) ++ r))) = true := by
      rw [show u ++ (("[]".data) ++ r) = u ++ '[' :: ']' :: r from rfl]
      exact trim_bracket_isPrefixOf r hu_ws
    unfold toggleLine
    simp only [Bool.false_eq_true, if_false, hguard, if_true]
    rw [replaceFirst_ws_append (show ("[]".data).head? = some '[' from rfl) hu,
        replaceFirst_head_match (by decide) r]

theorem toggleContent_set (c : Bool) (ln : Nat) (content : List Char)
    (h : rustLines content = splitNl content) :
    toggleContent c ln content =
      joinNl ((splitNl content).set ln (toggleLine c ((splitNl content).getD ln []))) := by
  unfold toggleContent
  rw [h, enum_map_ite_set (toggleLine c) [] (splitNl content) ln]

theorem content1_lines (parts : List (List Char)) (ln : Nat) (line' : List Char)
    (hln : ln < parts.length)
    (hnl' : ∀ c ∈ line', c ≠ '\n') (hcr' : line'.getLast? ≠ some '\r')
    (hne' : line' ≠ [])
    (hnl : ∀ l ∈ parts, ∀ c ∈ l, c ≠ '\n')
    (hcr : ∀ l ∈ parts, l.getLast? ≠ some '\r')
    (hlast : parts.getLast? ≠ some []) :
    rustLines (joinNl (parts.set ln line')) = parts.set ln line' := by
  apply rustLines_joinNl
  · intro h0
    have := congrArg List.length h0
    simp only [List.length_set, List.length_nil] at this
    omega
  · intro l hl
    rcases List.mem_or_eq_of_mem_set hl with h1 | h1
    · exact hnl l h1
    · subst h1; exact hnl'
  · intro l hl
    rcases List.mem_or_eq_of_mem_set hl with h1 | h1
    · exact hcr l h1
    · subst h1; exact hcr'
  · rw [getLast?_set hln]
    by_cases hl1 : ln = parts.length - 1
    · rw [if_pos hl1]
      intro heq
      exact hne' (Option.some.inj heq)
    · rw [if_neg hl1]
      exact hlast

theorem toggleContent_double (c : Bool) (ln : Nat) (content : List Char)
    (hCR : '\r' ∉ content) (hcne : content ≠ []) (hNL : content.getLast? ≠ some '\n')
    (hln : ln < (splitNl content).length)
    (hrt : toggleLine (!c) (toggleLine c ((splitNl content).getD ln [])) =
           (splitNl content).getD ln [])
    (hnl' : ∀ d ∈ toggleLine c ((splitNl content).getD ln []), d ≠ '\n')
    (hcr' : (toggleLine c ((splitNl content).getD ln [])).getLast? ≠ some '\r')
    (hne' : toggleLine c ((splitNl content).getD ln []) ≠ []) :
    toggleContent (!c) ln (toggleContent c ln content) = content := by
  have hparts : rustLines content = splitNl content := rustLines_eq_splitNl hCR hcne hNL
  have hnlP : ∀ l ∈ splitNl content, ∀ d ∈ l, d ≠ '\n' := by
    intro l hl d hd
    rw [splitNl_eq] at hl
    have := mem_splitP hl hd
    simpa using this.2
  have hcrP : ∀ l ∈ splitNl content, l.getLast? ≠ some '\r' :=
    splitNl_parts_getLast_ne_CR hCR
  have hlastP : (splitNl content).getLast? ≠ some [] :=
    splitNl_getLast_ne_nil content hcne hNL
  rw [toggleContent_set c ln content hparts]
  have h2 := content1_lines (splitNl content) ln
      (toggleLine c ((splitNl content).getD ln [])) hln hnl' hcr' hne' hnlP hcrP hlastP
  unfold toggleContent
  rw [h2, enum_map_ite_set (toggleLine (!c)) []]
  rw [getD_set_self [] hln]
  rw [hrt, List.set_set, set_getD_self _ _ _ hln, joinNl_splitNl]

/-- C3 (amended).  For every Todo whose `line_number` addresses a line whose
trimmed form starts with the marker matching its `completed` flag, toggling
twice restores the original file content byte-for-byte, provided the file
content contains no carriage return and does not end with a newline, the
marker of a completed todo is lowercase `[x]`, and the addressed line
contains no `[` beyond the marker's opening bracket. -/
theorem toggle_c3_amended (t : Todo) (content : List Char)
    (hCR : '\r' ∉ content)
    (hNL : content.getLast? ≠ some '\n')
    (hline : t.line_number < (rustLines content).length)
    (hmark : if t.completed then
        ("[x]".data).isPrefixOf
          (rustTrim ((rustLines content).getD t.line_number [])) = true ∧
        '[' ∉ (rustTrim ((rustLines content).getD t.line_number [])).drop 3
      else
        ("[]".data).isPrefixOf
          (rustTrim ((rustLines content).getD t.line_number [])) = true ∧
        '[' ∉ (rustTrim ((rustLines content).getD t.line_number [])).drop 2) :
    (Todo.toggle ((Todo.toggle t content).2) ((Todo.toggle t content).1)).1 = content := by
  have hcne : content ≠ [] := by
    intro hc
    subst hc
    rw [show rustLines ([] : List Char) = [] from rfl] at hline
    simp at hline
  have hparts : rustLines content = splitNl content := rustLines_eq_splitNl hCR hcne hNL
  have hlnP : t.line_number < (splitNl content).length := by
    rw [← hparts]; exact hline
  obtain ⟨u, v, hdec, hu_ws, hv_ws⟩ :=
    rustTrim_decomp ((splitNl content).getD t.line_number [])
  have hchar : ∀ d ∈ (splitNl content).getD t.line_number [], d ∈ content ∧ d ≠ '\n' := by
    have hmem : (splitNl content).getD t.line_number [] ∈ splitNl content := by
      rw [List.getD_eq_getElem?_getD, List.getElem?_eq_getElem hlnP]
      simpa using List.getElem_mem hlnP
    intro d hd
    rw [splitNl_eq] at hmem
    have := mem_splitP hmem hd
    exact ⟨this.1, by simpa using this.2⟩
  rw [hparts] at hmark
  show toggleContent (!t.completed) t.line_number
      (toggleContent t.completed t.line_number content) = content
  cases hcpl : t.completed with
  | true =>
    rw [hcpl] at hmark
    rw [if_pos rfl] at hmark
    obtain ⟨hpre, hbr⟩ := hmark
    obtain ⟨rest, hrest⟩ := List.isPrefixOf_iff_prefix.mp hpre
    have hdrop : (rustTrim ((splitNl content).getD t.line_number [])).drop 3 = rest := by
      rw [← hrest]; rfl
    rw [hdrop] at hbr
    have hdecomp : (splitNl content).getD t.line_number [] =
        u ++ (("[x]".data) ++ (rest ++ v)) := by
      conv_lhs => rw [hdec]
      rw [← hrest]
      simp [List.append_assoc]
    have hrv : '[' ∉ rest ++ v := by
      intro hm
      rcases List.mem_append.mp hm with h1 | h1
      · exact hbr h1
      · exact absurd (hv_ws '[' h1) (by decide)
    obtain ⟨tl1, tl2⟩ := toggleLine_rt hu_ws hrv
    have hmemline : ∀ d, d ∈ u ∨ d ∈ rest ++ v → d ∈ content ∧ d ≠ '\n' := by
      intro d hd
      apply hchar
      rw [hdecomp]
      rcases hd with h1 | h1
      · exact List.mem_append_left _ h1
      · exact List.mem_append_right _ (List.mem_append_right _ h1)
    apply toggleContent_double true t.line_number content hCR hcne hNL hlnP
    · simp only [Bool.not_true]
      rw [hdecomp, tl1, tl2]
    · intro d hd
      rw [hdecomp, tl1] at hd
      rcases List.mem_append.mp hd with h1 | h1
      · exact (hmemline d (Or.inl h1)).2
      · rcases List.mem_append.mp h1 with h2 | h2
        · rw [show ("[]".data : List Char) = ['[', ']'] from rfl] at h2
          simp only [List.mem_cons, List.not_mem_nil, or_false] at h2
          rcases h2 with rfl | rfl <;> decide
        · exact (hmemline d (Or.inr h2)).2
    · intro heq
      have hm := mem_of_getLast?_eq heq
      rw [hdecomp, tl1] at hm
      rcases List.mem_append.mp hm with h1 | h1
      · exact hCR (hmemline '\r' (Or.inl h1)).1
      · rcases List.mem_append.mp h1 with h2 | h2
        · revert h2; decide
        · exact hCR (hmemline '\r' (Or.inr h2)).1
    · rw [hdecomp, tl1]
      simp
  | false =>
    rw [hcpl] at hmark
    rw [if_neg (by simp)] at hmark
    obtain ⟨hpre, hbr⟩ := hmark
    obtain ⟨rest, hrest⟩ := List.isPrefixOf_iff_prefix.mp hpre
    have hdrop : (rustTrim ((splitNl content).getD t.line_number [])).drop 2 = rest := by
      rw [← hrest]; rfl
    rw [hdrop] at hbr
    have hdecomp : (splitNl content).getD t.line_number [] =
        u ++ (("[]".data) ++ (rest ++ v)) := by
      conv_lhs => rw [hdec]
      rw [← hrest]
      simp [List.append_assoc]
    have hrv : '[' ∉ rest ++ v := by
      intro hm
      rcases List.mem_append.mp hm with h1 | h1
      · exact hbr h1
      · exact absurd (hv_ws '[' h1) (by decide)
    obtain ⟨tl1, tl2⟩ := toggleLine_rt hu_ws hrv
    have hmemline : ∀ d, d ∈ u ∨ d ∈ rest ++ v → d ∈ content ∧ d ≠ '\n' := by
      intro d hd
      apply hchar
      rw [hdecomp]
      rcases hd with h1 | h1
      · exact List.mem_append_left _ h1
      · exact List.mem_append_right _ (List.mem_append_right _ h1)
    apply toggleContent_double false t.line_number content hCR hcne hNL hlnP
    · simp only [Bool.not_false]
      rw [hdecomp, tl2, tl1]
    · intro d hd
      rw [hdecomp, tl2] at hd
      rcases List.mem_append.mp hd with h1 | h1
      · exact (hmemline d (Or.inl h1)).2
      · rcases List.mem_append.mp h1 with h2 | h2
        · rw [show ("[x]".data : List Char) = ['[', 'x', ']'] from rfl] at h2
          simp only [List.mem_cons, List.not_mem_nil, or_false] at h2
          rcases h2 with rfl | rfl | rfl <;> decide
        · exact (hmemline d (Or.inr h2)).2
    · intro heq
      have hm := mem_of_getLast?_eq heq
      rw [hdecomp, tl2] at hm
      rcases List.mem_append.mp hm with h1 | h1
      · exact hCR (hmemline '\r' (Or.inl h1)).1
      · rcases List.mem_append.mp h1 with h2 | h2
        · revert h2; decide
        · exact hCR (hmemline '\r' (Or.inr h2)).1
    · rw [hdecomp, tl2]
      simp

/-- C3.  Counterexample to the claim as stated, at three concrete inputs
whose addressed line's trimmed form starts with the matching marker:
a trailing newline is dropped by `lines()`/`join("\n")` (file `"[x] a\n"`
comes back as `"[x] a"`); an uppercase marker is rewritten lowercase
(`"[X] a"` comes back as `"[x] a"`); and a second marker occurrence on the
line is also rewritten (`"[] a [x]"` comes back as `"[] a []"`). -/
theorem toggle_c3_counterexample :
    (("[x]".data).isPrefixOf
      (rustTrim ((rustLines ("[x] a\n".data)).getD 0 [])) = true ∧
     (Todo.toggle ((Todo.toggle ⟨"a".data, true, 0, [], [], []⟩ ("[x] a\n".data)).2)
        ((Todo.toggle ⟨"a".data, true, 0, [], [], []⟩ ("[x] a\n".data)).1)).1 ≠
       ("[x] a\n".data)) ∧
    (("[X]".data).isPrefixOf
      (rustTrim ((rustLines ("[X] a".data)).getD 0 [])) = true ∧
     (Todo.toggle ((Todo.toggle ⟨"a".data, true, 0, [], [], []⟩ ("[X] a".data)).2)
        ((Todo.toggle ⟨"a".data, true, 0, [], [], []⟩ ("[X] a".data)).1)).1 ≠
       ("[X] a".data)) ∧
    (("[]".data).isPrefixOf
      (rustTrim ((rustLines ("[] a [x]".data)).getD 0 [])) = true ∧
     (Todo.toggle ((Todo.toggle ⟨"a [x]".data, false, 0, [], [], []⟩ ("[] a [x]".data)).2)
        ((Todo.toggle ⟨"a [x]".data, false, 0, [], [], []⟩ ("[] a [x]".data)).1)).1 ≠
       ("[] a [x]".data)) := by
  refine ⟨⟨by decide, ?_⟩, ⟨by decide, ?_⟩, ⟨by decide, ?_⟩⟩
  · have e1 : (Todo.toggle ((Todo.toggle ⟨"a".data, true, 0, [], [], []⟩
        ("[x] a\n".data)).2)
        ((Todo.toggle ⟨"a".data, true, 0, [], [], []⟩ ("[x] a\n".data)).1)).1 =
        ("[x] a".data) := by
      simp [Todo.toggle, toggleContent, toggleLine, rustLines, splitNl, splitP, joinNl,
            replaceAll, replaceFirst, rustTrim, rustTrimMatches, rustIsWhitespace,
            stripCR, List.rdropWhile]
    rw [e1]
    decide
  · have e2 : (Todo.toggle ((Todo.toggle ⟨"a".data, true, 0, [], [], []⟩
        ("[X] a".data)).2)
        ((Todo.toggle ⟨"a".data, true, 0, [], [], []⟩ ("[X] a".data)).1)).1 =
        ("[x] a".data) := by
      simp [Todo.toggle, toggleContent, toggleLine, rustLines, splitNl, splitP, joinNl,
            replaceAll, replaceFirst, rustTrim, rustTrimMatches, rustIsWhitespace,
            stripCR, List.rdropWhile]
    rw [e2]
    decide
  · have e3 : (Todo.toggle ((Todo.toggle ⟨"a [x]".data, false, 0, [], [], []⟩
        ("[] a [x]".data)).2)
        ((Todo.toggle ⟨"a [x]".data, false, 0, [], [], []⟩ ("[] a [x]".data)).1)).1 =
        ("[] a []".data) := by
      simp [Todo.toggle, toggleContent, toggleLine, rustLines, splitNl, splitP, joinNl,
            replaceAll, replaceFirst, rustTrim, rustTrimMatches, rustIsWhitespace,
            stripCR, List.rdropWhile]
    rw [e3]
    decide

/-- C3 witness: the two-line file `"x\n[] a"` with the incomplete todo at
line 1; toggling twice restores the content byte-for-byte. -/
theorem toggle_c3_amended_witness :
    ('\r' ∉ ("x\n[] a".data : List Char)) ∧
    (("x\n[] a".data : List Char).getLast? ≠ some '\n') ∧
    (1 < (rustLines ("x\n[] a".data)).length) ∧
    (Todo.toggle ((Todo.toggle ⟨"a".data, false, 1, [], [], []⟩ ("x\n[] a".data)).2)
      ((Todo.toggle ⟨"a".data, false, 1, [], [], []⟩ ("x\n[] a".data)).1)).1 =
      ("x\n[] a".data) :=
  ⟨by decide, by decide, by decide,
   toggle_c3_amended ⟨"a".data, false, 1, [], [], []⟩ ("x\n[] a".data)
     (by decide) (by decide) (by decide) (by decide)⟩
